import Mathlib

/-!
Verification of the `@digitalbazaar/cbor` codec (a fork of `node-cbor`).

The development shallowly embeds the JavaScript source:

* byte output is modelled as `List ℕ` (each entry a byte value 0–255);
* JavaScript numbers (IEEE-754 doubles) are modelled by `JSNum`:
  `NaN`, signed infinities, negative zero, and exact finite values as
  rationals.  The platform conversions `Math.fround` / `setFloat32` /
  `setFloat64` are modelled by an explicit round-to-nearest-ties-to-even
  bit-pattern function `fbits`;
* JavaScript strings are lists of UTF-16 code units (`List ℕ`, each < 2^16);
  `TextEncoder` is modelled by pairing surrogates (lone surrogates become
  U+FFFD) followed by UTF-8 serialization of the resulting scalar values;
* `bigint` values are `ℤ`, `Uint8Array`s are `List ℕ`.

Encoder definitions are translated from `src/lib/Encoder.js`,
`src/lib/Simple.js` (which also carries `constants.js`), `src/lib/util.js`
and the unnamed utility module (`parseCBORint`, `parseHalf`, `writeHalf`,
`BufferStream`).  The repository's `Decoder.js` is not among the provided
sources (only `main.js` re-exports it), so the decoder is modelled from the
specification, as flagged on each such definition.
-/

namespace CborDB

/-! ## Big-endian byte strings

`beBytes k n` models a `DataView.setUintXX`-style big-endian write of `n`
into `k` bytes (the value is implicitly truncated mod `2^(8k)`, as the
`DataView` setters do).  `parseBE` models the corresponding big-endian read.
-/

/-- Big-endian bytes of `n`, exactly `k` bytes wide (truncating mod `2^(8k)`). -/
def beBytes : ℕ → ℕ → List ℕ
  | 0, _ => []
  | k + 1, n => beBytes k (n / 256) ++ [n % 256]

/-- Big-endian read of a byte list: fold `acc * 256 + byte`. -/
def parseBE (l : List ℕ) : ℕ := l.foldl (fun acc b => acc * 256 + b) 0

theorem length_beBytes (k n : ℕ) : (beBytes k n).length = k := by
  induction k generalizing n with
  | zero => rfl
  | succ k ih => simp [beBytes, ih]

theorem parseBE_append_singleton (l : List ℕ) (b : ℕ) :
    parseBE (l ++ [b]) = parseBE l * 256 + b := by
  simp [parseBE, List.foldl_append]

theorem parseBE_beBytes (k n : ℕ) (h : n < 2 ^ (8 * k)) :
    parseBE (beBytes k n) = n := by
  induction k generalizing n with
  | zero =>
    simp only [Nat.mul_zero, pow_zero, Nat.lt_one_iff] at h
    simp [beBytes, parseBE, h]
  | succ k ih =>
    have hdiv : n / 256 < 2 ^ (8 * k) := by
      have h256 : (256 : ℕ) = 2 ^ 8 := by norm_num
      rw [h256, Nat.div_lt_iff_lt_mul (by positivity), ← pow_add]
      calc n < 2 ^ (8 * (k + 1)) := h
        _ = 2 ^ (8 * k + 8) := by ring_nf
    rw [beBytes, parseBE_append_singleton, ih _ hdiv]
    omega

theorem beBytes_mem_lt (k n b : ℕ) (h : b ∈ beBytes k n) : b < 256 := by
  induction k generalizing n with
  | zero => simp [beBytes] at h
  | succ k ih =>
    simp only [beBytes, List.mem_append, List.mem_singleton] at h
    rcases h with h | h
    · exact ih _ h
    · omega

theorem beBytes_split (j k n : ℕ) :
    beBytes (j + k) n = beBytes j (n / 2 ^ (8 * k)) ++ beBytes k (n % 2 ^ (8 * k)) := by
  induction k generalizing n with
  | zero => simp [beBytes]
  | succ k ih =>
    have hpow : (2 : ℕ) ^ (8 * (k + 1)) = 256 * 2 ^ (8 * k) := by
      have h256 : (256 : ℕ) = 2 ^ 8 := by norm_num
      rw [h256, ← pow_add]
      ring_nf
    have h1 : n / 256 / 2 ^ (8 * k) = n / 2 ^ (8 * (k + 1)) := by
      rw [Nat.div_div_eq_div_mul, hpow]
    have h2 : n / 256 % 2 ^ (8 * k) = n % 2 ^ (8 * (k + 1)) / 256 := by
      rw [hpow, Nat.mod_mul_right_div_self]
    have h3 : n % 256 = n % 2 ^ (8 * (k + 1)) % 256 := by
      rw [Nat.mod_mod_of_dvd]
      rw [hpow]
      exact Dvd.intro _ rfl
    have hjk : j + (k + 1) = (j + k) + 1 := by omega
    rw [hjk, beBytes, ih, beBytes, h1, h2, ← h3, List.append_assoc]

/-! ## IEEE-754 bit-pattern model

`fbits mb eb x` is the bit pattern (as a natural number) obtained by
rounding the rational `x` to the binary floating-point format with `mb`
mantissa bits and `eb` exponent bits, using round-to-nearest ties-to-even —
the conversion performed by `DataView.setFloat32` / `setFloat64` and
`Math.fround`.  `valBits` is the reverse interpretation of a bit pattern.
-/

/-- `2^k` for an integer `k`, as a rational. -/
def qpow2 (k : ℤ) : ℚ :=
  if k < 0 then 1 / 2 ^ (-k).toNat else 2 ^ k.toNat

theorem qpow2_eq_zpow (k : ℤ) : qpow2 k = (2 : ℚ) ^ k := by
  unfold qpow2
  split
  · rename_i h
    rw [one_div, ← zpow_natCast (2 : ℚ) (-k).toNat, ← zpow_neg, Int.toNat_of_nonneg (by omega),
      neg_neg]
  · rename_i h
    rw [← zpow_natCast (2 : ℚ) k.toNat, Int.toNat_of_nonneg (by omega)]

theorem qpow2_pos (k : ℤ) : 0 < qpow2 k := by
  rw [qpow2_eq_zpow]
  positivity

/-- `⌊log₂ n⌋` computed with explicit fuel (the fuel argument makes the
recursion structural, so the kernel can evaluate it). -/
def floorLog2F : ℕ → ℕ → ℕ
  | 0, _ => 0
  | fuel + 1, n => if 2 ≤ n then floorLog2F fuel (n / 2) + 1 else 0

/-- `⌊log₂ n⌋` for `n ≥ 1` (and `0` for `n = 0`). -/
def floorLog2 (n : ℕ) : ℕ := floorLog2F n n

/-- Smallest `m` with `t ≤ 2^m`, for `t ≥ 1`. -/
def clog2 (t : ℕ) : ℕ := if t ≤ 1 then 0 else floorLog2 (t - 1) + 1

/-- `⌊log₂ (p/d)⌋` for positive naturals `p`, `d`. -/
def ilog2 (p d : ℕ) : ℤ :=
  if d ≤ p then (floorLog2 (p / d) : ℤ) else -(clog2 ((d + p - 1) / p) : ℤ)

/-- Round `a / b` to the nearest natural, ties to even (`b > 0`). -/
def rdiv (a b : ℕ) : ℕ :=
  let f := a / b
  let r := a % b
  if 2 * r < b then f
  else if b < 2 * r then f + 1
  else if f % 2 = 0 then f else f + 1

/-- The bit pattern of the floating-point value nearest `x`, in the format
with `mb` mantissa bits and `eb` exponent bits (round-to-nearest ties-to-even,
overflow to infinity).  `fbits 23 8` models `Math.fround`/`setFloat32` on a
finite value; `fbits 52 11` models `setFloat64`.  The zero input gives the
positive-zero pattern; negative zero is tracked separately by `JSNum`.
All arithmetic is on `x.num`/`x.den` so that the kernel can evaluate it. -/
def fbits (mb eb : ℕ) (x : ℚ) : ℕ :=
  let p : ℕ := x.num.natAbs
  let d : ℕ := x.den
  if p = 0 then 0 else
  let s : ℕ := if x.num < 0 then 2 ^ (mb + eb) else 0
  let emax : ℤ := 2 ^ (eb - 1) - 1
  let e : ℤ := max (ilog2 p d) (1 - emax)
  -- m = round-to-nearest-even of (p/d) * 2^(mb - e)
  let k : ℤ := (mb : ℤ) - e
  let m : ℕ := if 0 ≤ k then rdiv (p * 2 ^ k.toNat) d else rdiv p (d * 2 ^ (-k).toNat)
  if m = 2 ^ (mb + 1) then
    -- rounding carried into the next binade
    if emax < e + 1 then s + (2 ^ eb - 1) * 2 ^ mb
    else s + ((e + 1 + emax).toNat) * 2 ^ mb
  else if m < 2 ^ mb then
    -- subnormal (only reachable when e = 1 - emax)
    s + m
  else if emax < e then s + (2 ^ eb - 1) * 2 ^ mb
  else s + ((e + emax).toNat) * 2 ^ mb + (m - 2 ^ mb)

/-- JavaScript number: IEEE-754 double modelled as NaN, signed infinity,
negative zero, or an exact finite (rational) value.  `fin 0` is positive
zero. -/
inductive JSNum where
  | nan
  | inf (neg : Bool)
  | negZero
  | fin (q : ℚ)
deriving DecidableEq, Repr

/-- Interpretation of a bit pattern in the (`mb`,`eb`) floating-point format
as a JavaScript number. -/
def valBits (mb eb : ℕ) (bits : ℕ) : JSNum :=
  let s := bits / 2 ^ (mb + eb) % 2
  let expF := bits / 2 ^ mb % 2 ^ eb
  let mant := bits % 2 ^ mb
  let sgn : ℚ := if s = 1 then -1 else 1
  if expF = 2 ^ eb - 1 then
    if mant = 0 then .inf (s = 1) else .nan
  else if expF = 0 then
    if mant = 0 then (if s = 1 then .negZero else .fin 0)
    else .fin (sgn * mant * qpow2 (1 - (2 ^ (eb - 1) - 1) - mb))
  else
    .fin (sgn * (2 ^ mb + mant) * qpow2 ((expF : ℤ) - (2 ^ (eb - 1) - 1) - mb))

/-- Decide whether the bit pattern `u` (format `mb`,`eb`) denotes a value
numerically equal (JavaScript `===`, so `-0 === 0`) to the finite rational
`x`.  Integer-level equivalent of comparing `valBits mb eb u` with `x`;
cross-multiplication keeps the computation in `ℕ` so the kernel can run it. -/
def valExact (mb eb : ℕ) (u : ℕ) (x : ℚ) : Bool :=
  let expF := u / 2 ^ mb % 2 ^ eb
  let mant := u % 2 ^ mb
  if expF = 2 ^ eb - 1 then false   -- ±∞ or NaN, never `===` a finite value
  else if expF = 0 ∧ mant = 0 then x.num = 0
  else
    let emax : ℤ := 2 ^ (eb - 1) - 1
    let M : ℕ := if expF = 0 then mant else 2 ^ mb + mant
    let K : ℤ := (if expF = 0 then 1 else (expF : ℤ)) - emax - mb
    let p := x.num.natAbs
    let d := x.den
    (decide (x.num < 0) = decide (u / 2 ^ (mb + eb) % 2 = 1)) &&
      (if 0 ≤ K then p = d * (M * 2 ^ K.toNat) else p * 2 ^ (-K).toNat = M * d)

/-- The test `Math.fround(x) === x` for a finite JavaScript number `x`:
round to binary32 and compare back. -/
def froundSame (x : ℚ) : Bool := valExact 23 8 (fbits 23 8 x) x

/-- The 32-bit big-endian bytes written by `_pushFloatBE` (`setFloat32`). -/
def float32Bytes : JSNum → List ℕ
  | .nan => beBytes 4 0x7FC00000
  | .inf false => beBytes 4 0x7F800000
  | .inf true => beBytes 4 0xFF800000
  | .negZero => beBytes 4 0x80000000
  | .fin q => beBytes 4 (fbits 23 8 q)

/-- The 64-bit big-endian bytes written by `_pushDoubleBE` (`setFloat64`). -/
def float64Bytes : JSNum → List ℕ
  | .nan => beBytes 8 0x7FF8000000000000
  | .inf false => beBytes 8 0x7FF0000000000000
  | .inf true => beBytes 8 0xFFF0000000000000
  | .negZero => beBytes 8 0x8000000000000000
  | .fin q => beBytes 8 (fbits 52 11 q)

/-! ## Encoder (`src/lib/Encoder.js`)

The embedded encoder reflects a default-constructed `Encoder`
(`Encoder.encode`): `canonical = false` (the constructor throws for
`canonical: true`, so the half-precision branch of `_pushFloat` is dead
code), `detectLoops = false`, `collapseBigIntegers = false`,
`omitUndefinedProperties = false`.  Loop detection is modelled separately
(see `pushAnyD` below).  Byte-head constants follow `constants.js`:
`NUMBYTES.ONE/TWO/FOUR/EIGHT/INDEFINITE = 24/25/26/27/31`,
`MT.POS_INT..SIMPLE_FLOAT = 0..7`, `SIMPLE.FALSE/TRUE/NULL/UNDEFINED =
20/21/22/23`. -/

/-- `Number.MAX_SAFE_INTEGER` (2^53 − 1). -/
def maxSafeInteger : ℕ := 9007199254740991

/-- `(MT.SIMPLE_FLOAT << 5) | SIMPLE.TRUE` — the CBOR `true` byte. -/
def TRUE_BYTE : ℕ := (7 <<< 5) ||| 21

/-- `(MT.SIMPLE_FLOAT << 5) | SIMPLE.FALSE` — the CBOR `false` byte. -/
def FALSE_BYTE : ℕ := (7 <<< 5) ||| 20

/-- `(MT.SIMPLE_FLOAT << 5) | SIMPLE.NULL` — the CBOR `null` byte. -/
def NULL_BYTE : ℕ := (7 <<< 5) ||| 22

/-- `(MT.SIMPLE_FLOAT << 5) | SIMPLE.UNDEFINED` — the CBOR `undefined` byte. -/
def UNDEFINED_BYTE : ℕ := (7 <<< 5) ||| 23

/-- `BUF_NAN = hex.decode('f97e00')`. -/
def BUF_NAN : List ℕ := [0xf9, 0x7e, 0x00]

/-- `BUF_INF_NEG = hex.decode('f9fc00')`. -/
def BUF_INF_NEG : List ℕ := [0xf9, 0xfc, 0x00]

/-- `BUF_INF_POS = hex.decode('f97c00')`. -/
def BUF_INF_POS : List ℕ := [0xf9, 0x7c, 0x00]

/-- `BUF_NEG_ZERO = hex.decode('f98000')`. -/
def BUF_NEG_ZERO : List ℕ := [0xf9, 0x80, 0x00]

/-- `Encoder._pushFloat` with `canonical = false` (the only reachable
configuration in this fork): emit a 4-byte single when
`Math.fround(obj) === obj`, else an 8-byte double.  `FLOAT = (7<<5)|26`,
`DOUBLE = (7<<5)|27`.  The `.nan`/`.inf`/`.negZero` rows record what the
same code does on those inputs (`fround` fixes them; `NaN !== NaN`); they
are unreachable from `_pushNumber`, which filters specials first. -/
def pushFloat (x : JSNum) : List ℕ :=
  match x with
  | .fin q =>
    if froundSame q then ((7 <<< 5) ||| 26) :: float32Bytes (.fin q)
    else ((7 <<< 5) ||| 27) :: float64Bytes (.fin q)
  | .negZero => ((7 <<< 5) ||| 26) :: float32Bytes .negZero
  | .inf b => ((7 <<< 5) ||| 26) :: float32Bytes (.inf b)
  | .nan => ((7 <<< 5) ||| 27) :: float64Bytes .nan

/-- `Encoder._pushInt(obj, mt, orig)`: minimal-width head for arguments up
to `Number.MAX_SAFE_INTEGER`, beyond which the code falls back to
`_pushFloat` (on `orig` when `mt` is `NEG_INT`).  The 8-byte branch writes
`Math.floor(obj / SHIFT32)` and `obj % SHIFT32` as two 4-byte words. -/
def pushInt (n : ℕ) (mt : ℕ) (orig : JSNum) : List ℕ :=
  let m := mt <<< 5
  if n < 24 then [m ||| n]
  else if n ≤ 0xff then [m ||| 24, n]
  else if n ≤ 0xffff then (m ||| 25) :: beBytes 2 n
  else if n ≤ 0xffffffff then (m ||| 26) :: beBytes 4 n
  else if n ≤ maxSafeInteger then
    (m ||| 27) :: (beBytes 4 (n / 0x100000000) ++ beBytes 4 (n % 0x100000000))
  else if mt = 1 then pushFloat orig
  else pushFloat (.fin n)

/-- `Encoder._pushIntNum(obj)` for an integer-valued number: `-0` emits
`BUF_NEG_ZERO`; negative numbers go to `_pushInt(-obj - 1, NEG_INT, obj)`;
non-negative to `_pushInt(obj, POS_INT)`.  (`.nan`/`.inf` never reach this
method; the `pushFloat` row keeps the function total.) -/
def pushIntNum (x : JSNum) : List ℕ :=
  match x with
  | .negZero => BUF_NEG_ZERO
  | .fin q =>
    if q < 0 then pushInt (-q.num - 1).toNat 1 (.fin q)
    else pushInt q.num.toNat 0 (.fin q)
  | x => pushFloat x

/-- `Encoder._pushNumber(obj)`: dispatch NaN → `_pushNaN`, non-finite →
`_pushInfinity`, integer-valued (`Math.round(obj) === obj`, i.e. denominator
1; `-0` also rounds to itself) → `_pushIntNum`, otherwise `_pushFloat`. -/
def pushNumber : JSNum → List ℕ
  | .nan => BUF_NAN
  | .inf b => if b then BUF_INF_NEG else BUF_INF_POS
  | .negZero => pushIntNum .negZero
  | .fin q => if q.den = 1 then pushIntNum (.fin q) else pushFloat (.fin q)

/-! ### Strings

JavaScript strings are lists of UTF-16 code units.  `TextEncoder.encode`
(used by `_pushString`) combines surrogate pairs into scalar values,
replaces lone surrogates by U+FFFD, and UTF-8-serializes the result. -/

/-- Code unit in `[0xD800, 0xDBFF]`. -/
def isHighSurrogate (u : ℕ) : Bool := 0xD800 ≤ u && u ≤ 0xDBFF

/-- Code unit in `[0xDC00, 0xDFFF]`. -/
def isLowSurrogate (u : ℕ) : Bool := 0xDC00 ≤ u && u ≤ 0xDFFF

/-- Convert UTF-16 code units to Unicode scalar values, replacing lone
surrogates by U+FFFD (the behaviour of `TextEncoder`). -/
def utf16ToScalars : List ℕ → List ℕ
  | [] => []
  | [u] =>
    if isHighSurrogate u || isLowSurrogate u then [0xFFFD] else [u]
  | u :: v :: rest2 =>
    if isHighSurrogate u then
      if isLowSurrogate v then
        (0x10000 + (u - 0xD800) * 0x400 + (v - 0xDC00)) :: utf16ToScalars rest2
      else 0xFFFD :: utf16ToScalars (v :: rest2)
    else if isLowSurrogate u then 0xFFFD :: utf16ToScalars (v :: rest2)
    else u :: utf16ToScalars (v :: rest2)

/-- UTF-8 bytes of one Unicode scalar value. -/
def utf8EncodeChar (c : ℕ) : List ℕ :=
  if c < 0x80 then [c]
  else if c < 0x800 then [0xC0 + c / 64, 0x80 + c % 64]
  else if c < 0x10000 then [0xE0 + c / 4096, 0x80 + c / 64 % 64, 0x80 + c % 64]
  else [0xF0 + c / 262144, 0x80 + c / 4096 % 64, 0x80 + c / 64 % 64, 0x80 + c % 64]

/-- UTF-8 bytes of a list of Unicode scalar values. -/
def utf8Encode : List ℕ → List ℕ
  | [] => []
  | c :: cs => utf8EncodeChar c ++ utf8Encode cs

/-- `Encoder._pushString(obj)`: `_pushInt(buf.length, UTF8_STRING)` followed
by the `TextEncoder` bytes. -/
def pushString (cu : List ℕ) : List ℕ :=
  let buf := utf8Encode (utf16ToScalars cu)
  pushInt buf.length 3 (.fin buf.length) ++ buf

/-- `Encoder._pushTag(tag)` = `_pushInt(tag, MT.TAG)`. -/
def pushTag (tag : ℕ) : List ℕ := pushInt tag 6 (.fin tag)

/-- `Encoder._pushByteString(gen, obj)`: `_pushInt(length, BYTE_STRING)`
followed by the raw bytes. -/
def pushByteString (bs : List ℕ) : List ℕ :=
  pushInt bs.length 2 (.fin bs.length) ++ bs

/-- The bytes of `hex.decode(str)` where `str = obj.toString(16)` padded
with a leading `'0'` to an even number of hex digits: the minimal
big-endian byte string of `n`, with `[0x00]` for `n = 0`.  Fuel makes the
recursion structural. -/
def natToBEBytesF : ℕ → ℕ → List ℕ
  | 0, _ => []
  | fuel + 1, n => if n = 0 then [] else natToBEBytesF fuel (n / 256) ++ [n % 256]

/-- Minimal big-endian bytes of `n` (`[0x00]` for `n = 0`), as produced by
the hex-string round-trip in `_pushJSBigint`/`_pushBigint`. -/
def natToBEBytes (n : ℕ) : List ℕ :=
  if n = 0 then [0] else natToBEBytesF n n

/-- `2^(2^32)`: a magnitude bound under which a bignum's big-endian byte
string is at most `2^29` bytes, so its length head stays in the
safe-integer range.  A named constant, so arithmetic automation treats it
as an atom instead of evaluating the tower. -/
def bigLimit : ℕ := 2 ^ 2 ^ 32

/-- `Encoder._pushJSBigint(obj)` (with `collapseBigIntegers` as a
parameter): negative values become magnitude `-obj - 1` with
`mt = NEG_INT`, `tag = NEG_BIGINT` (3); when collapsing and the magnitude
fits 64 bits, emit it as a plain integer (≤ `0xffffffff`) or as an
8-byte-argument head; otherwise emit `TAG(tag)` wrapping the magnitude's
big-endian byte string. -/
def pushJSBigint (v : ℤ) (collapse : Bool) : List ℕ :=
  let m : ℕ := if v < 0 then 1 else 0
  let tag : ℕ := if v < 0 then 3 else 2
  let o : ℕ := if v < 0 then (-v - 1).toNat else v.toNat
  if collapse && decide (o ≤ 0xffffffffffffffff) then
    if o ≤ 0xffffffff then pushInt o m (.fin o)
    else ((m <<< 5) ||| 27) :: (beBytes 4 (o / 0x100000000) ++ beBytes 4 (o % 0x100000000))
  else pushTag tag ++ pushByteString (natToBEBytes o)

/-! ### The round-trip value domain (claim C1)

`CVal` is the domain of claim C1: unsigned integers up to `2^64 − 1`,
negative integers down to `-2^64` (represented as `nint n` = `-1 - n`),
booleans, `null`, UTF-16 strings, byte strings, arrays and maps of such.
A host program presents integers of magnitude at most `2^53 − 1` as
JavaScript numbers and larger ones as `bigint`s (numbers cannot represent
all larger integers exactly); `encC` reflects `Encoder.pushAny` on that
presentation. -/

inductive CVal where
  | uint (n : ℕ)
  | nint (n : ℕ)
  | bool (b : Bool)
  | null
  | str (cu : List ℕ)
  | bytes (bs : List ℕ)
  | arr (elems : List CVal)
  | map (entries : List (CVal × CVal))

mutual

/-- `Encoder.pushAny` (default options) on a `CVal`: numbers through
`_pushNumber`, large integers through `_pushJSBigint` (no collapsing),
strings through `_pushString`, `Uint8Array`s through
`_pushTypedArray`/`_pushByteString`, arrays through `_pushArray`
(definite), `Map`s through `_pushMap` (definite), `null` through
`_pushNull`, booleans through `_pushBoolean`. -/
def encC : CVal → List ℕ
  | .uint n => if n ≤ maxSafeInteger then pushNumber (.fin n) else pushJSBigint n false
  | .nint n =>
    if n ≤ maxSafeInteger then pushNumber (.fin (Int.negSucc n : ℤ))
    else pushJSBigint (Int.negSucc n) false
  | .bool b => [if b then TRUE_BYTE else FALSE_BYTE]
  | .null => [NULL_BYTE]
  | .str cu => pushString cu
  | .bytes bs => pushByteString bs
  | .arr l => pushInt l.length 4 (.fin l.length) ++ encCList l
  | .map es => pushInt es.length 5 (.fin es.length) ++ encCPairs es

/-- Children of `_pushArray`, emitted through `pushAny` in order. -/
def encCList : List CVal → List ℕ
  | [] => []
  | v :: vs => encC v ++ encCList vs

/-- Entries of `_pushMap`, key then value through `pushAny`, in order. -/
def encCPairs : List (CVal × CVal) → List ℕ
  | [] => []
  | (k, v) :: es => encC k ++ encC v ++ encCPairs es

end

/-- `Encoder.encode(v)` — a fresh default `Encoder`, one `pushAny`, `flush`. -/
def Encoder.encode (v : CVal) : List ℕ := encC v

/-! ## Decoded values -/

/-- A decoded JavaScript value.  Native numbers and arbitrary-precision
integers (`BigInt`/`BigNumber`) are merged into `int` — claim C4 treats the
native/bignum split separately through `parseCBORint`.  `symNull`,
`symUndef` and `symBreak` are the `SYMS.NULL`/`SYMS.UNDEFINED`/`SYMS.BREAK`
sentinels from `constants.js`. -/
inductive DVal where
  | int (n : ℤ)
  | float (x : JSNum)
  | bool (b : Bool)
  | nullV
  | undef
  | symNull
  | symUndef
  | symBreak
  | str (scalars : List ℕ)
  | bytes (bs : List ℕ)
  | arr (l : List DVal)
  | map (es : List (DVal × DVal))
  | simple (n : ℕ)
  | tagged (tag : ℕ) (v : DVal) (err : Option String)

/-! ## `Simple.decode` (`src/lib/Simple.js`) -/

namespace Simple

/-- `Simple.decode(val, has_parent, parent_indefinite)`: `SIMPLE.FALSE=20`,
`TRUE=21`, `NULL=22` (safe symbol when parentless), `UNDEFINED=23`
(likewise); `-1` encodes BREAK, legal only inside an indefinite parent;
anything else builds `new Simple(val)`, whose constructor demands a small
non-negative integer. -/
def decode (val : ℤ) (has_parent parent_indefinite : Bool) : Except String DVal :=
  if val = 20 then .ok (.bool false)
  else if val = 21 then .ok (.bool true)
  else if val = 22 then .ok (if has_parent then .nullV else .symNull)
  else if val = 23 then .ok (if has_parent then .undef else .symUndef)
  else if val = -1 then
    if !has_parent || !parent_indefinite then .error "Invalid BREAK"
    else .ok .symBreak
  else if 0 ≤ val ∧ val ≤ 255 then .ok (.simple val.toNat)
  else .error "value must be a small positive integer"

end Simple

/-! ## Integer and float parsing (unnamed utility module) -/

/-- A decoded CBOR integer argument: a native number or an
arbitrary-precision integer (`BigInt`/`BigNumber`, merged). -/
inductive JSInt where
  | num (n : ℕ)
  | big (n : ℕ)
deriving DecidableEq, Repr

/-- `MAX_SAFE_HIGH = 0x1fffff` (`constants.js`): the largest high 32-bit
word for which `high * 2^32 + low` is at most `Number.MAX_SAFE_INTEGER`. -/
def MAX_SAFE_HIGH : ℕ := 0x1fffff

/-- `parseCBORint(ai, buf)`: read the 1/2/4/8-byte big-endian argument; in
the 8-byte case promote to an arbitrary-precision integer when the high
word `f` exceeds `MAX_SAFE_HIGH`.  (The `bigInt` flag only selects between
`BigInt` and `BigNumber`, which the model merges.)  The caller supplies a
buffer of exactly the required width, as the `DataView` accesses assume. -/
def parseCBORint (ai : ℕ) (buf : List ℕ) : Except String JSInt :=
  if ai = 24 then .ok (.num (parseBE (buf.take 1)))
  else if ai = 25 then .ok (.num (parseBE (buf.take 2)))
  else if ai = 26 then .ok (.num (parseBE (buf.take 4)))
  else if ai = 27 then
    let f := parseBE (buf.take 4)
    let g := parseBE ((buf.drop 4).take 4)
    if MAX_SAFE_HIGH < f then .ok (.big (f * 0x100000000 + g))
    else .ok (.num (f * 0x100000000 + g))
  else .error "Invalid additional info for int"

/-- `parseHalf(buf)`: half-precision decode, computed exactly.
`sign = buf[0] & 0x80 ? -1 : 1`, `exp = (buf[0] & 0x7C) >> 2`,
`mant = ((buf[0] & 0x03) << 8) | buf[1]`; `exp = 0` gives
`sign * 2^-24 * mant` (so `-0` when the mantissa is zero and the sign is
set), `exp = 0x1f` gives NaN or signed infinity, and otherwise
`sign * 2^(exp-25) * (1024 + mant)` (written with `mkRat` so the kernel can
evaluate it; `5.9604644775390625e-8` is exactly `2^-24`). -/
def parseHalf (b0 b1 : ℕ) : JSNum :=
  let neg : Bool := b0 &&& 0x80 ≠ 0
  let exp := (b0 &&& 0x7C) >>> 2
  let mant := ((b0 &&& 0x03) <<< 8) ||| b1
  if exp = 0 then
    if mant = 0 then (if neg then .negZero else .fin 0)
    else .fin (mkRat (if neg then -(mant : ℤ) else mant) (2 ^ 24))
  else if exp = 0x1f then
    if mant ≠ 0 then .nan else .inf neg
  else
    let mag : ℤ := 1024 + mant
    if 25 ≤ exp then .fin (mkRat ((if neg then -mag else mag) * 2 ^ (exp - 25)) 1)
    else .fin (mkRat (if neg then -mag else mag) (2 ^ (25 - exp)))

/-- `writeHalf(buf, half)`: reinterpret `half` as its binary32 bits `u`
(`setFloat32` + `getUint32`, here `fbits 23 8`), refuse when the low 13
mantissa bits are set, then assemble the half-precision pattern for the
normalized (`113 ≤ exp ≤ 142`) or subnormal (`103 ≤ exp < 113`, requiring
the dropped bits to be zero) ranges; all other exponents refuse.  Returns
the 16-bit value written through `setUint16`. -/
def writeHalf (x : ℚ) : Option ℕ :=
  let u := fbits 23 8 x
  if u &&& 0x1FFF ≠ 0 then none
  else
    let s16 := (u >>> 16) &&& 0x8000
    let exp := (u >>> 23) &&& 0xff
    let mant := u &&& 0x7fffff
    if 113 ≤ exp ∧ exp ≤ 142 then some (s16 + ((exp - 112) <<< 10) + (mant >>> 13))
    else if 103 ≤ exp ∧ exp < 113 then
      if mant &&& ((1 <<< (126 - exp)) - 1) ≠ 0 then none
      else some (s16 + ((mant + 0x800000) >>> (126 - exp)))
    else none

/-! ## `Tagged` (`src/lib/util.js`) -/

/-- A decoded tagged item: tag number, inner value, and the error recorded
by a failed interpreter (`util.js` stores `error.message` when non-empty;
the model's errors are the message strings). -/
structure Tagged where
  tag : ℕ
  value : DVal
  err : Option String

/-- A tag interpreter: decoded payload to converted value, or a thrown
error. -/
def TagConv : Type := DVal → Except String DVal

/-- The built-in interpreters `Tagged._tag_N` that act inside the value
model: tag 2 (`bufferToBignumber`) and tag 3 (`-1 - bufferToBignumber`).
The remaining built-ins (dates, URLs, regexps, base-N views, sets, typed
arrays) construct host objects outside the model and are omitted; the
isolation theorem for claim C8 quantifies over arbitrary interpreters, so
their omission cannot affect it. -/
def builtinTag : ℕ → Option TagConv
  | 2 => some (fun v =>
      match v with
      | .bytes bs => .ok (.int (parseBE bs))
      | _ => .error "Invalid bignum encoding")
  | 3 => some (fun v =>
      match v with
      | .bytes bs => .ok (.int (-1 - (parseBE bs : ℤ)))
      | _ => .error "Invalid bignum encoding")
  | _ => none

/-- `Tagged.convert(converters)`: select the user converter for this tag,
else the built-in `_tag_N`, else the typed-array interpreter (absent from
the model), else return the wrapper unchanged; call it on the payload and,
when it throws, record the error on `err` and return the wrapper. -/
def Tagged.convert (t : Tagged) (converters : ℕ → Option TagConv) : Tagged ⊕ DVal :=
  let f := match converters t.tag with
    | some f => some f
    | none => builtinTag t.tag
  match f with
  | none => .inl t
  | some f =>
    match f t.value with
    | .ok v => .inr v
    | .error e => .inl { tag := t.tag, value := t.value, err := some e }

/-! ## Indefinite string encoding (`Encoder.encodeIndefinite`) -/

/-- The chunk boundaries of `encodeIndefinite`'s string loop:
`obj.slice(offset, offset + chunkSize)` with `offset` advancing by
`chunkSize`.  Fuel (the string length) makes the recursion structural; for
`chunkSize ≥ 1` it never runs out.  (For `chunkSize = 0` the JavaScript
loop does not terminate; the model stops at the fuel bound.) -/
def strChunksF : ℕ → ℕ → List ℕ → List (List ℕ)
  | 0, _, _ => []
  | _, _, [] => []
  | fuel + 1, c, cu => cu.take c :: strChunksF fuel c (cu.drop c)

/-- The chunks of `cu` of size `c`, in order. -/
def strChunks (c : ℕ) (cu : List ℕ) : List (List ℕ) := strChunksF cu.length c cu

/-- Each chunk through `gen._pushString`, concatenated. -/
def pushStringChunks : List (List ℕ) → List ℕ
  | [] => []
  | ch :: t => pushString ch ++ pushStringChunks t

/-- `Encoder.encodeIndefinite(gen, obj, {chunkSize})` for a string `obj`:
emit `(UTF8_STRING << 5) | NUMBYTES.INDEFINITE`, then each
`chunkSize`-code-unit slice through `_pushString`, then BREAK (`0xff`). -/
def encodeIndefiniteStr (cu : List ℕ) (chunkSize : ℕ) : List ℕ :=
  ((3 <<< 5) ||| 31) :: pushStringChunks (strChunks chunkSize cu) ++ [0xff]

/-! ## Loop detection (`Encoder._pushObject`, claim C6)

For loop detection only the identities of container objects matter.
`OVal` labels each container with an identity; `pushAnyD` threads the
`detectLoops` `WeakSet` (a `Finset ℕ` of identities) through
`pushAny`/`_pushObject` exactly as the source does: `_pushObject`
checks-and-adds on entry (throwing when present), the semantic-type
converters (`_pushArray`, `_pushMap`, …) return without touching the set,
and only the generic object branch deletes its identity on exit. -/

inductive OVal where
  | prim
  | arr (id : ℕ) (elems : List OVal)
  | omap (id : ℕ) (entries : List (OVal × OVal))
  | pobj (id : ℕ) (fields : List OVal)

/-- The `Error` message thrown on a detected loop. -/
def loopErr : String :=
  "Loop detected while CBOR encoding. Call removeLoopDetectors before resuming."

mutual

/-- `pushAny`/`_pushObject` with `detectLoops` enabled, tracking only the
detector set.  Arrays and `Map`s dispatch to their converters after the
check-and-add and return without removal; plain objects take the generic
branch, which deletes the identity after its children. -/
def pushAnyD : OVal → Finset ℕ → Except String (Finset ℕ)
  | .prim, s => .ok s
  | .arr id l, s =>
    if id ∈ s then .error loopErr
    else pushListD l (insert id s)
  | .omap id es, s =>
    if id ∈ s then .error loopErr
    else pushPairsD es (insert id s)
  | .pobj id fs, s =>
    if id ∈ s then .error loopErr
    else
      match pushListD fs (insert id s) with
      | .ok s2 => .ok (s2.erase id)
      | .error e => .error e

/-- Children of `_pushArray` / fields of the generic object branch. -/
def pushListD : List OVal → Finset ℕ → Except String (Finset ℕ)
  | [], s => .ok s
  | v :: vs, s =>
    match pushAnyD v s with
    | .ok s2 => pushListD vs s2
    | .error e => .error e

/-- Entries of `_pushMap`: key then value through `pushAny`. -/
def pushPairsD : List (OVal × OVal) → Finset ℕ → Except String (Finset ℕ)
  | [], s => .ok s
  | (k, v) :: es, s =>
    match pushAnyD k s with
    | .ok s2 =>
      match pushAnyD v s2 with
      | .ok s3 => pushPairsD es s3
      | .error e => .error e
    | .error e => .error e

end

/-! ## The specification's `write_head` (spec §4.1, claims C2/C7)

This definition follows the specification's words, not the source: it is
the claim-side description that the source functions are compared
against. -/

/-- Spec §4.1 `write_head(mt, n)`: argument inline below 24, otherwise the
smallest of 1/2/4/8 big-endian bytes that holds `n`, with additional info
`24/25/26/27`. -/
def specWriteHead (mt n : ℕ) : List ℕ :=
  if n < 24 then [(mt <<< 5) ||| n]
  else if n < 2 ^ 8 then ((mt <<< 5) ||| 24) :: beBytes 1 n
  else if n < 2 ^ 16 then ((mt <<< 5) ||| 25) :: beBytes 2 n
  else if n < 2 ^ 32 then ((mt <<< 5) ||| 26) :: beBytes 4 n
  else ((mt <<< 5) ||| 27) :: beBytes 8 n

/-! ## Strict UTF-8 decoding

Modelled from the spec: §6 requires "a UTF-8 codec offering strict
`decode(bytes) → text` (must raise on invalid sequences)" — the host's
`TextDecoder('utf8', {fatal: true})` used by `stringFromUtf8Bytes`.
Strict UTF-8: no overlong forms, no surrogates, no values beyond
U+10FFFF. -/

/-- A UTF-8 continuation byte. -/
def isCont (b : ℕ) : Bool := 0x80 ≤ b && b < 0xC0

/-- Decode one UTF-8 scalar from the front of a byte list (strict). -/
def utf8DecodeOne : List ℕ → Option (ℕ × List ℕ)
  | [] => none
  | b :: rest =>
    if b < 0x80 then some (b, rest)
    else if b < 0xC2 then none       -- continuation byte or overlong C0/C1 lead
    else if b < 0xE0 then
      match rest with
      | b1 :: r =>
        if isCont b1 then some ((b - 0xC0) * 64 + (b1 - 0x80), r) else none
      | _ => none
    else if b < 0xF0 then
      match rest with
      | b1 :: b2 :: r =>
        let c := (b - 0xE0) * 4096 + (b1 - 0x80) * 64 + (b2 - 0x80)
        if isCont b1 && isCont b2 && decide (0x800 ≤ c) &&
            !(decide (0xD800 ≤ c) && decide (c ≤ 0xDFFF)) then
          some (c, r)
        else none
      | _ => none
    else if b < 0xF5 then
      match rest with
      | b1 :: b2 :: b3 :: r =>
        let c := (b - 0xF0) * 262144 + (b1 - 0x80) * 4096 + (b2 - 0x80) * 64 + (b3 - 0x80)
        if isCont b1 && isCont b2 && isCont b3 && decide (0x10000 ≤ c) &&
            decide (c ≤ 0x10FFFF) then
          some (c, r)
        else none
      | _ => none
    else none

/-- Strict UTF-8 decode of a whole byte list (fuelled; one scalar consumes
at least one byte, so the list length suffices as fuel). -/
def utf8DecodeF : ℕ → List ℕ → Option (List ℕ)
  | _, [] => some []
  | 0, _ :: _ => none
  | fuel + 1, l =>
    match utf8DecodeOne l with
    | some (c, r) =>
      match utf8DecodeF fuel r with
      | some cs => some (c :: cs)
      | none => none
    | none => none

/-- Strict UTF-8 decode to scalar values. -/
def utf8Decode (l : List ℕ) : Option (List ℕ) := utf8DecodeF l.length l

/-! ## Decoder

Modelled from the spec: the repository's `Decoder.js` is not among the
provided sources (`main.js` re-exports `Decoder.decodeFirstSync` as
`decode`), so the functions below follow spec §4.2 (`read_head`), §4.5
(the decode algorithm) and §4.6 (tag interpretation, via
`Tagged.convert` above with no user converters).  Native numbers and
bignums are merged into `DVal.int` (spec §4.2's 2^53−1 promotion rule is
claim C4's subject, handled by `parseCBORint`).  Fuel decreases on
every recursive call (keeping the recursion structural, hence
kernel-evaluable); one unit is spent per item and per container step, so
twice the byte length always suffices. -/

/-- One decoded step: a value, or the BREAK sentinel. -/
inductive DItem where
  | val (v : DVal)
  | brk

/-- Read exactly `k` bytes from the input (`BufferStream.read`), raising
"Insufficient data" when fewer remain. -/
def readN (k : ℕ) (l : List ℕ) : Except String (List ℕ × List ℕ) :=
  if k ≤ l.length then .ok (l.take k, l.drop k) else .error "Insufficient data"

/-- Spec §4.2: read the head's argument for additional info `ai`:
inline below 24; 1/2/4/8 big-endian tail bytes for 24–27 (`none` marks
indefinite, `ai = 31`); 28–30 are "Additional info not implemented". -/
def readArg (ai : ℕ) (l : List ℕ) : Except String (Option ℕ × List ℕ) :=
  if ai < 24 then .ok (some ai, l)
  else if ai ≤ 27 then
    let k := 2 ^ (ai - 24)  -- 1, 2, 4, 8 bytes
    if k ≤ l.length then .ok (some (parseBE (l.take k)), l.drop k)
    else .error "Insufficient data"
  else if ai = 31 then .ok (none, l)
  else .error "Additional info not implemented"

mutual

/-- Spec §4.5: decode one item.  `hasParent`/`parentIndef` describe the
enclosing frame, as in `Simple.decode`. -/
def decodeItem : ℕ → List ℕ → Bool → Bool → Except String (DItem × List ℕ)
  | 0, _, _, _ => .error "Insufficient data"
  | _ + 1, [], _, _ => .error "Insufficient data"
  | fuel + 1, b :: rest, hasParent, parentIndef =>
    let mt := b / 32
    let ai := b % 32
    match readArg ai rest with
    | .error e => .error e
    | .ok (arg?, r) =>
      match mt, arg? with
      | 0, some n => .ok (.val (.int n), r)
      | 1, some n => .ok (.val (.int (-1 - (n : ℤ))), r)
      | 2, some n =>
        match readN n r with
        | .error e => .error e
        | .ok (bs, r2) => .ok (.val (.bytes bs), r2)
      | 2, none =>
        match decodeChunks fuel 2 r with
        | .error e => .error e
        | .ok (bs, r2) => .ok (.val (.bytes bs), r2)
      | 3, some n =>
        match readN n r with
        | .error e => .error e
        | .ok (bs, r2) =>
          match utf8Decode bs with
          | some sc => .ok (.val (.str sc), r2)
          | none => .error "Invalid UTF-8"
      | 3, none =>
        match decodeChunks fuel 3 r with
        | .error e => .error e
        | .ok (bs, r2) =>
          match utf8Decode bs with
          | some sc => .ok (.val (.str sc), r2)
          | none => .error "Invalid UTF-8"
      | 4, some n =>
        match decodeListD fuel n r with
        | .error e => .error e
        | .ok (vs, r2) => .ok (.val (.arr vs), r2)
      | 4, none =>
        match decodeIndefList fuel r with
        | .error e => .error e
        | .ok (vs, r2) => .ok (.val (.arr vs), r2)
      | 5, some n =>
        match decodePairsD fuel n r with
        | .error e => .error e
        | .ok (es, r2) => .ok (.val (.map es), r2)
      | 5, none =>
        match decodeIndefPairs fuel r with
        | .error e => .error e
        | .ok (es, r2) => .ok (.val (.map es), r2)
      | 6, some n =>
        match decodeItem fuel r true false with
        | .error e => .error e
        | .ok (.brk, _) => .error "Invalid BREAK"
        | .ok (.val v, r2) =>
          match Tagged.convert ⟨n, v, none⟩ (fun _ => none) with
          | .inl t => .ok (.val (.tagged t.tag t.value t.err), r2)
          | .inr w => .ok (.val w, r2)
      | 7, some n =>
        if ai < 24 then
          -- small simple values, via `Simple.decode`
          match Simple.decode n hasParent parentIndef with
          | .error e => .error e
          | .ok v => .ok (.val v, r)
        else if ai = 24 then
          if n ≤ 31 then .error "Invalid two-byte encoding of simple value"
          else .ok (.val (.simple n), r)
        else if ai = 25 then .ok (.val (.float (parseHalf (n / 256) (n % 256))), r)
        else if ai = 26 then .ok (.val (.float (valBits 23 8 n)), r)
        else .ok (.val (.float (valBits 52 11 n)), r)
      | 7, none =>
        -- BREAK, as `Simple.decode(-1, …)` rules it
        if hasParent && parentIndef then .ok (.brk, r)
        else .error "Invalid BREAK"
      | _, none => .error "Invalid indefinite encoding"
      | _, _ => .error "Invalid major type"   -- mt > 7 is impossible (b / 32 < 8)

/-- Spec §4.5, MT 4 definite: decode `n` items. -/
def decodeListD : ℕ → ℕ → List ℕ → Except String (List DVal × List ℕ)
  | _, 0, l => .ok ([], l)
  | 0, _ + 1, _ => .error "Insufficient data"
  | fuel + 1, n + 1, l =>
    match decodeItem fuel l true false with
    | .error e => .error e
    | .ok (.brk, _) => .error "Invalid BREAK"
    | .ok (.val v, r) =>
      match decodeListD fuel n r with
      | .error e => .error e
      | .ok (vs, r2) => .ok (v :: vs, r2)

/-- Spec §4.5, MT 5 definite: decode `2n` items as alternating keys and
values. -/
def decodePairsD : ℕ → ℕ → List ℕ → Except String (List (DVal × DVal) × List ℕ)
  | _, 0, l => .ok ([], l)
  | 0, _ + 1, _ => .error "Insufficient data"
  | fuel + 1, n + 1, l =>
    match decodeItem fuel l true false with
    | .error e => .error e
    | .ok (.brk, _) => .error "Invalid BREAK"
    | .ok (.val k, r1) =>
      match decodeItem fuel r1 true false with
      | .error e => .error e
      | .ok (.brk, _) => .error "Invalid BREAK"
      | .ok (.val v, r2) =>
        match decodePairsD fuel n r2 with
        | .error e => .error e
        | .ok (es, r3) => .ok ((k, v) :: es, r3)

/-- Spec §4.5, MT 4 indefinite: decode items until BREAK. -/
def decodeIndefList : ℕ → List ℕ → Except String (List DVal × List ℕ)
  | 0, _ => .error "Insufficient data"
  | fuel + 1, l =>
    match decodeItem fuel l true true with
    | .error e => .error e
    | .ok (.brk, r) => .ok ([], r)
    | .ok (.val v, r) =>
      match decodeIndefList fuel r with
      | .error e => .error e
      | .ok (vs, r2) => .ok (v :: vs, r2)

/-- Spec §4.5, MT 5 indefinite: decode pairs until BREAK in a key slot; a
BREAK in a value slot is "Invalid map length". -/
def decodeIndefPairs : ℕ → List ℕ → Except String (List (DVal × DVal) × List ℕ)
  | 0, _ => .error "Insufficient data"
  | fuel + 1, l =>
    match decodeItem fuel l true true with
    | .error e => .error e
    | .ok (.brk, r) => .ok ([], r)
    | .ok (.val k, r1) =>
      match decodeItem fuel r1 true true with
      | .error e => .error e
      | .ok (.brk, _) => .error "Invalid map length"
      | .ok (.val v, r2) =>
        match decodeIndefPairs fuel r2 with
        | .error e => .error e
        | .ok (es, r3) => .ok ((k, v) :: es, r3)

/-- Spec §4.5 / §3 invariant 3: the chunks of an indefinite string must be
definite-length strings of the same major type `mt`; payloads are
concatenated until BREAK. -/
def decodeChunks : ℕ → ℕ → List ℕ → Except String (List ℕ × List ℕ)
  | 0, _, _ => .error "Insufficient data"
  | _ + 1, _, [] => .error "Insufficient data"
  | fuel + 1, mt, b :: rest =>
    if b = 0xff then .ok ([], rest)
    else
      let cmt := b / 32
      let cai := b % 32
      if cmt ≠ mt then .error "Invalid major type in indefinite encoding"
      else if cai = 31 then .error "Invalid indefinite encoding"
      else
        match readArg cai rest with
        | .error e => .error e
        | .ok (none, _) => .error "Invalid indefinite encoding"
        | .ok (some n, r) =>
          match readN n r with
          | .error e => .error e
          | .ok (bs, r2) =>
            match decodeChunks fuel mt r2 with
            | .error e => .error e
            | .ok (tail, r3) => .ok (bs ++ tail, r3)

end

/-- Spec §3 "reserved sentinels": `decodeFirstSync` surfaces a parentless
`SYMS.NULL`/`SYMS.UNDEFINED` as `null`/`undefined`. -/
def nullcheck : DVal → DVal
  | .symNull => .nullV
  | .symUndef => .undef
  | v => v

/-- Modelled from the spec: `Decoder.decodeFirstSync(bytes)` (`main.js`'s
`decode`): decode exactly one item; trailing bytes raise "Unexpected
data"; running out of input raises "Insufficient data". -/
def Decoder.decodeFirstSync (bytes : List ℕ) : Except String DVal :=
  match decodeItem (2 * bytes.length) bytes false false with
  | .ok (.val v, []) => .ok (nullcheck v)
  | .ok (.val _, _ :: _) => .error "Unexpected data"
  | .ok (.brk, _) => .error "Invalid BREAK"
  | .error e => .error e

/-! ## Well-formedness and the round-trip correspondence (claim C1) -/

/-- A well-formed UTF-16 code-unit sequence: every high surrogate is
followed by a low surrogate and no low surrogate appears unpaired ("UTF-8
strings" in the claim's sense — strings denoting Unicode scalar
sequences). -/
def validUtf16 : List ℕ → Bool
  | [] => true
  | [u] => !(isHighSurrogate u || isLowSurrogate u)
  | u :: v :: rest =>
    if isHighSurrogate u then isLowSurrogate v && validUtf16 rest
    else !(isLowSurrogate u) && validUtf16 (v :: rest)

mutual

/-- Claim C1's domain: integers within `[-2^64, 2^64)`, bytes below 256,
well-formed UTF-16 strings with in-range code units, and containers of
such.  Lengths are bounded by what a JavaScript host can hold (strings
below `2^32` code units, array/map/byte lengths within
`Number.MAX_SAFE_INTEGER`). -/
def wfC : CVal → Bool
  | .uint n => n < 2 ^ 64
  | .nint n => n < 2 ^ 64
  | .bool _ => true
  | .null => true
  | .str cu => decide (cu.length < 2 ^ 32) && cu.all (fun u => u < 2 ^ 16) && validUtf16 cu
  | .bytes bs => decide (bs.length ≤ maxSafeInteger) && bs.all (fun b => b < 256)
  | .arr l => decide (l.length ≤ maxSafeInteger) && wfL l
  | .map es => decide (es.length ≤ maxSafeInteger) && wfP es

/-- `wfC` on every element. -/
def wfL : List CVal → Bool
  | [] => true
  | v :: vs => wfC v && wfL vs

/-- `wfC` on every key and value. -/
def wfP : List (CVal × CVal) → Bool
  | [] => true
  | (k, v) :: es => wfC k && wfC v && wfP es

end

mutual

/-- The decoded counterpart of an encoded `CVal`: the equivalence of claim
C1.  Integers map to `DVal.int` (whether decoded as native numbers or
bignums), strings to their Unicode scalar sequences, containers
pointwise. -/
def toD : CVal → DVal
  | .uint n => .int n
  | .nint n => .int (-1 - (n : ℤ))
  | .bool b => .bool b
  | .null => .nullV
  | .str cu => .str (utf16ToScalars cu)
  | .bytes bs => .bytes bs
  | .arr l => .arr (toDL l)
  | .map es => .map (toDP es)

/-- `toD` on every element. -/
def toDL : List CVal → List DVal
  | [] => []
  | v :: vs => toD v :: toDL vs

/-- `toD` on every key and value. -/
def toDP : List (CVal × CVal) → List (DVal × DVal)
  | [] => []
  | (k, v) :: es => (toD k, toD v) :: toDP es

end

/-- `toD`, adjusted for a parentless item: a top-level `null` decodes to
the `SYMS.NULL` sentinel (which `decodeFirstSync`'s `nullcheck`
restores). -/
def toDH (hp : Bool) : CVal → DVal
  | .null => if hp then .nullV else .symNull
  | v => toD v

mutual

/-- Fuel needed by `decodeItem` on the encoding of `v` (one unit per item
and per container step). -/
def szC : CVal → ℕ
  | .uint n => if n ≤ maxSafeInteger then 1 else 2
  | .nint n => if n ≤ maxSafeInteger then 1 else 2
  | .arr l => 1 + szL l
  | .map es => 1 + szP es
  | _ => 1

/-- Fuel needed by `decodeListD` on an encoded element list. -/
def szL : List CVal → ℕ
  | [] => 0
  | v :: vs => 1 + max (szC v) (szL vs)

/-- Fuel needed by `decodePairsD` on an encoded entry list. -/
def szP : List (CVal × CVal) → ℕ
  | [] => 0
  | (k, v) :: es => 1 + max (szC k) (max (szC v) (szP es))

end

/-! ## Head lemmas -/

theorem lor_head : ∀ mt < 8, ∀ ai < 32, (mt <<< 5) ||| ai = 32 * mt + ai := by decide

/-- `_pushInt` emits exactly the specification's `write_head` for every
argument up to `Number.MAX_SAFE_INTEGER`. -/
theorem pushInt_eq_specWriteHead (n mt : ℕ) (orig : JSNum)
    (hn : n ≤ maxSafeInteger) : pushInt n mt orig = specWriteHead mt n := by
  unfold pushInt specWriteHead
  by_cases h1 : n < 24
  · simp [h1]
  · by_cases h2 : n ≤ 0xff
    · simp [h1, h2, show n < 256 by omega, beBytes,
        Nat.mod_eq_of_lt (show n < 256 by omega)]
    · by_cases h3 : n ≤ 0xffff
      · simp [h1, h2, h3, show ¬ n < 256 by omega, show n < 65536 by omega]
      · by_cases h4 : n ≤ 0xffffffff
        · simp [h1, h2, h3, h4, show ¬ n < 256 by omega, show ¬ n < 65536 by omega,
            show n < 4294967296 by omega]
        · have h5 : n ≤ maxSafeInteger := hn
          rw [if_neg h1, if_neg h2, if_neg h3, if_neg h4, if_pos h5,
            if_neg (show ¬ n < 24 from h1), if_neg (show ¬ n < 2 ^ 8 by omega),
            if_neg (show ¬ n < 2 ^ 16 by omega), if_neg (show ¬ n < 2 ^ 32 by omega)]
          have hsplit := beBytes_split 4 4 n
          have hp : (2 : ℕ) ^ (8 * 4) = 0x100000000 := by norm_num
          rw [hp] at hsplit
          rw [show (8 : ℕ) = 4 + 4 from rfl, hsplit]

/-- Peeling the specification head off a byte stream: the head byte
carries `mt` and an additional info below 28, and `readArg` recovers the
argument and the rest. -/
theorem specWriteHead_consume (mt n : ℕ) (hmt : mt < 8) (hn : n < 2 ^ 64) (l : List ℕ) :
    ∃ b t, specWriteHead mt n ++ l = b :: (t ++ l) ∧ b / 32 = mt ∧ b % 32 < 28 ∧
      readArg (b % 32) (t ++ l) = .ok (some n, l) := by
  have hstep : ∀ ai k : ℕ, 24 ≤ ai → ai ≤ 27 → 2 ^ (ai - 24) = k → n < 2 ^ (8 * k) →
      readArg ai (beBytes k n ++ l) = .ok (some n, l) := by
    intro ai k h24 h27 hk hnk
    unfold readArg
    have hlen : (beBytes k n).length = k := length_beBytes k n
    rw [if_neg (by omega), if_pos (by omega), hk,
      if_pos (by rw [List.length_append, hlen]; omega),
      List.take_left' hlen, List.drop_left' hlen, parseBE_beBytes k n hnk]
  unfold specWriteHead
  by_cases h1 : n < 24
  · refine ⟨32 * mt + n, [], ?_, by omega, by omega, ?_⟩
    · simp [h1, lor_head mt hmt n (by omega)]
    · have hai : (32 * mt + n) % 32 = n := by omega
      rw [hai]
      unfold readArg
      rw [if_pos (by omega)]
      simp
  · by_cases h2 : n < 256
    · refine ⟨32 * mt + 24, beBytes 1 n, ?_, by omega, by omega, ?_⟩
      · simp [h1, h2, lor_head mt hmt 24 (by omega)]
      · rw [show (32 * mt + 24) % 32 = 24 by omega]
        exact hstep 24 1 (by omega) (by omega) (by norm_num) (by norm_num; omega)
    · by_cases h3 : n < 65536
      · refine ⟨32 * mt + 25, beBytes 2 n, ?_, by omega, by omega, ?_⟩
        · simp [h1, h2, h3, lor_head mt hmt 25 (by omega)]
        · rw [show (32 * mt + 25) % 32 = 25 by omega]
          exact hstep 25 2 (by omega) (by omega) (by norm_num) (by norm_num; omega)
      · by_cases h4 : n < 4294967296
        · refine ⟨32 * mt + 26, beBytes 4 n, ?_, by omega, by omega, ?_⟩
          · simp [h1, h2, h3, h4, lor_head mt hmt 26 (by omega)]
          · rw [show (32 * mt + 26) % 32 = 26 by omega]
            exact hstep 26 4 (by omega) (by omega) (by norm_num) (by norm_num; omega)
        · refine ⟨32 * mt + 27, beBytes 8 n, ?_, by omega, by omega, ?_⟩
          · simp [h1, h2, h3, h4, lor_head mt hmt 27 (by omega)]
          · rw [show (32 * mt + 27) % 32 = 27 by omega]
            exact hstep 27 8 (by omega) (by omega) (by norm_num) (by norm_num; omega)

/-! ## Number-path and payload lemmas -/

theorem pushNumber_nat (n : ℕ) (hn : n ≤ maxSafeInteger) :
    pushNumber (.fin n) = specWriteHead 0 n := by
  have h1 : ((n : ℚ)).den = 1 := Rat.den_natCast n
  have h2 : ¬ ((n : ℚ) < 0) := not_lt.mpr (by positivity)
  have h3 : ((n : ℚ)).num = n := Rat.num_natCast n
  simp only [pushNumber, pushIntNum]
  rw [h1, if_pos rfl, if_neg h2, h3, Int.toNat_natCast]
  exact pushInt_eq_specWriteHead n 0 _ hn

theorem pushNumber_negSucc (n : ℕ) (hn : n ≤ maxSafeInteger) :
    pushNumber (.fin (Int.negSucc n : ℤ)) = specWriteHead 1 n := by
  have h1 : (((Int.negSucc n : ℤ) : ℚ)).den = 1 := Rat.den_intCast _
  have h2 : (((Int.negSucc n : ℤ) : ℚ)) < 0 := by
    exact_mod_cast Int.negSucc_lt_zero n
  have h3 : (((Int.negSucc n : ℤ) : ℚ)).num = Int.negSucc n := Rat.num_intCast _
  have h4 : (-(Int.negSucc n) - 1).toNat = n := by
    rw [Int.neg_negSucc]
    simp
  simp only [pushNumber, pushIntNum]
  rw [h1, if_pos rfl, if_pos h2, h3, h4]
  exact pushInt_eq_specWriteHead n 1 _ hn

theorem parseBE_natToBEBytesF (fuel n : ℕ) (h : n ≤ fuel) :
    parseBE (natToBEBytesF fuel n) = n := by
  induction fuel generalizing n with
  | zero =>
    interval_cases n
    simp [natToBEBytesF, parseBE]
  | succ fuel ih =>
    unfold natToBEBytesF
    by_cases h0 : n = 0
    · simp [h0, parseBE]
    · rw [if_neg h0, parseBE_append_singleton, ih (n / 256) (by omega)]
      omega

/-- The hex-string byte encoding of a magnitude reads back to itself. -/
theorem parseBE_natToBEBytes (n : ℕ) : parseBE (natToBEBytes n) = n := by
  unfold natToBEBytes
  by_cases h0 : n = 0
  · simp [h0, parseBE]
  · rw [if_neg h0]
    exact parseBE_natToBEBytesF n n le_rfl

/-! ## UTF-8 round-trip -/

/-- A Unicode scalar value: in range and not a surrogate. -/
def validScalar (c : ℕ) : Prop := c < 0x110000 ∧ ¬(0xD800 ≤ c ∧ c ≤ 0xDFFF)

set_option maxRecDepth 4000 in
theorem utf16ToScalars_valid :
    ∀ cu : List ℕ, (∀ u ∈ cu, u < 2 ^ 16) → ∀ c ∈ utf16ToScalars cu, validScalar c := by
  intro cu
  induction cu using utf16ToScalars.induct with
  | case1 => simp [utf16ToScalars]
  | case2 u hs =>
    intro h c hc
    unfold utf16ToScalars at hc
    rw [if_pos hs] at hc
    simp only [List.mem_singleton] at hc
    subst hc
    exact ⟨by norm_num, by norm_num⟩
  | case3 u hs =>
    intro h c hc
    unfold utf16ToScalars at hc
    rw [if_neg hs] at hc
    simp only [List.mem_singleton] at hc
    subst hc
    have hu := h c (by simp)
    simp only [Bool.or_eq_true, not_or, isHighSurrogate, isLowSurrogate,
      Bool.and_eq_true, decide_eq_true_eq, not_and, Classical.not_imp, not_le] at hs
    exact ⟨by omega, by omega⟩
  | case4 u v rest2 hhi hlo ih =>
    intro h c hc
    unfold utf16ToScalars at hc
    rw [if_pos hhi, if_pos hlo] at hc
    simp only [List.mem_cons] at hc
    rcases hc with hc | hc
    · simp only [isHighSurrogate, Bool.and_eq_true, decide_eq_true_eq] at hhi
      simp only [isLowSurrogate, Bool.and_eq_true, decide_eq_true_eq] at hlo
      rw [hc]
      exact ⟨by omega, by omega⟩
    · exact ih (fun w hw => h w (by simp at hw ⊢; tauto)) c hc
  | case5 u v rest2 hhi hlo ih =>
    intro h c hc
    unfold utf16ToScalars at hc
    rw [if_pos hhi, if_neg hlo] at hc
    simp only [List.mem_cons] at hc
    rcases hc with hc | hc
    · subst hc
      exact ⟨by norm_num, by norm_num⟩
    · exact ih (fun w hw => h w (by simp at hw ⊢; tauto)) c hc
  | case6 u v rest2 hhi hlo ih =>
    intro h c hc
    unfold utf16ToScalars at hc
    rw [if_neg hhi, if_pos hlo] at hc
    simp only [List.mem_cons] at hc
    rcases hc with hc | hc
    · subst hc
      exact ⟨by norm_num, by norm_num⟩
    · exact ih (fun w hw => h w (by simp at hw ⊢; tauto)) c hc
  | case7 u v rest2 hhi hlo ih =>
    intro h c hc
    unfold utf16ToScalars at hc
    rw [if_neg hhi, if_neg hlo] at hc
    simp only [List.mem_cons] at hc
    rcases hc with hc | hc
    · subst hc
      have hu := h c (by simp)
      simp only [isHighSurrogate, Bool.and_eq_true, decide_eq_true_eq, not_and, not_le] at hhi
      simp only [isLowSurrogate, Bool.and_eq_true, decide_eq_true_eq, not_and, not_le] at hlo
      refine ⟨by omega, ?_⟩
      rintro ⟨ha, hb⟩
      rcases Nat.lt_or_ge c 0xDC00 with hcase | hcase
      · exact absurd (hhi ha) (by omega)
      · exact absurd (hlo hcase) (by omega)
    · exact ih (fun w hw => h w (by simp at hw ⊢; tauto)) c hc

theorem utf8EncodeChar_cons (c : ℕ) : ∃ a t, utf8EncodeChar c = a :: t := by
  unfold utf8EncodeChar
  split
  · exact ⟨_, _, rfl⟩
  · split
    · exact ⟨_, _, rfl⟩
    · split
      · exact ⟨_, _, rfl⟩
      · exact ⟨_, _, rfl⟩

theorem utf8EncodeChar_length_le (c : ℕ) : (utf8EncodeChar c).length ≤ 4 := by
  unfold utf8EncodeChar
  split
  · simp
  · split
    · simp
    · split
      · simp
      · simp

theorem utf8EncodeChar_length_le_three (c : ℕ) (h : c < 0x10000) :
    (utf8EncodeChar c).length ≤ 3 := by
  unfold utf8EncodeChar
  split_ifs <;> simp only [List.length_cons, List.length_nil] <;> omega

theorem utf8EncodeChar_length_pos (c : ℕ) : 1 ≤ (utf8EncodeChar c).length := by
  obtain ⟨a, t, he⟩ := utf8EncodeChar_cons c
  simp [he]

theorem utf8DecodeOne_encodeChar (c : ℕ) (hc : validScalar c) (r : List ℕ) :
    utf8DecodeOne (utf8EncodeChar c ++ r) = some (c, r) := by
  obtain ⟨hrange, hsurr⟩ := hc
  unfold utf8EncodeChar
  by_cases h1 : c < 0x80
  · rw [if_pos h1, List.singleton_append]
    simp only [utf8DecodeOne]
    rw [if_pos h1]
  · rw [if_neg h1]
    by_cases h2 : c < 0x800
    · rw [if_pos h2, List.cons_append, List.singleton_append]
      simp only [utf8DecodeOne]
      rw [if_neg (by omega), if_neg (by omega), if_pos (by omega),
        if_pos (by simp only [isCont, Bool.and_eq_true, decide_eq_true_eq]; omega)]
      simp only [Option.some.injEq, Prod.mk.injEq]
      exact ⟨by omega, trivial⟩
    · rw [if_neg h2]
      by_cases h3 : c < 0x10000
      · rw [if_pos h3, List.cons_append, List.cons_append, List.singleton_append]
        simp only [utf8DecodeOne]
        rw [if_neg (by omega), if_neg (by omega), if_neg (by omega), if_pos (by omega),
          if_pos (by
            simp only [isCont, Bool.and_eq_true, Bool.not_eq_true', Bool.and_eq_false_iff,
              decide_eq_true_eq, decide_eq_false_iff_not, not_le]
            omega)]
        simp only [Option.some.injEq, Prod.mk.injEq]
        exact ⟨by omega, trivial⟩
      · rw [if_neg h3, List.cons_append, List.cons_append, List.cons_append,
          List.singleton_append]
        simp only [utf8DecodeOne]
        rw [if_neg (by omega), if_neg (by omega), if_neg (by omega), if_neg (by omega),
          if_pos (by omega),
          if_pos (by
            simp only [isCont, Bool.and_eq_true, decide_eq_true_eq]
            omega)]
        simp only [Option.some.injEq, Prod.mk.injEq]
        exact ⟨by omega, trivial⟩

theorem length_le_utf8Encode (s : List ℕ) : s.length ≤ (utf8Encode s).length := by
  induction s with
  | nil => simp [utf8Encode]
  | cons c cs ih =>
    have := utf8EncodeChar_length_pos c
    simp only [utf8Encode, List.length_append, List.length_cons]
    omega

theorem utf8DecodeF_encode (s : List ℕ) (hv : ∀ c ∈ s, validScalar c) :
    ∀ fuel, s.length ≤ fuel → utf8DecodeF fuel (utf8Encode s) = some s := by
  induction s with
  | nil => intro fuel _; cases fuel <;> rfl
  | cons c cs ih =>
    intro fuel hf
    obtain ⟨f, rfl⟩ : ∃ f, fuel = f + 1 := ⟨fuel - 1, by simp at hf; omega⟩
    obtain ⟨a, t, he⟩ := utf8EncodeChar_cons c
    have hne : utf8Encode (c :: cs) = a :: (t ++ utf8Encode cs) := by
      show utf8EncodeChar c ++ utf8Encode cs = _
      rw [he, List.cons_append]
    rw [hne]
    simp only [utf8DecodeF]
    rw [← List.cons_append, ← he, utf8DecodeOne_encodeChar c (hv c (by simp)) _]
    simp [ih (fun w hw => hv w (by simp [hw])) f (by simp at hf; omega)]

/-- Strict UTF-8 decoding inverts `TextEncoder`'s encoding on scalar
sequences. -/
theorem utf8Decode_encode (s : List ℕ) (hv : ∀ c ∈ s, validScalar c) :
    utf8Decode (utf8Encode s) = some s :=
  utf8DecodeF_encode s hv _ (length_le_utf8Encode s)

theorem utf8Encode_utf16_length :
    ∀ cu : List ℕ, (∀ u ∈ cu, u < 2 ^ 16) →
      (utf8Encode (utf16ToScalars cu)).length ≤ 3 * cu.length := by
  intro cu
  induction cu using utf16ToScalars.induct with
  | case1 => simp [utf16ToScalars, utf8Encode]
  | case2 u hs =>
    intro h
    unfold utf16ToScalars
    rw [if_pos hs]
    simp [utf8Encode, utf8EncodeChar]
  | case3 u hs =>
    intro h
    unfold utf16ToScalars
    rw [if_neg hs]
    have h3 := utf8EncodeChar_length_le_three u (by have := h u (by simp); omega)
    simp only [utf8Encode, List.length_append, List.length_singleton, List.length_nil]
    omega
  | case4 u v rest2 hhi hlo ih =>
    intro h
    unfold utf16ToScalars
    rw [if_pos hhi, if_pos hlo]
    have h4 := utf8EncodeChar_length_le (0x10000 + (u - 0xD800) * 0x400 + (v - 0xDC00))
    have hrec := ih (fun w hw => h w (by simp [hw]))
    simp only [utf8Encode, List.length_append, List.length_cons] at hrec ⊢
    omega
  | case5 u v rest2 hhi hlo ih =>
    intro h
    unfold utf16ToScalars
    rw [if_pos hhi, if_neg hlo]
    have h3 : (utf8EncodeChar 0xFFFD).length ≤ 3 := utf8EncodeChar_length_le_three _ (by norm_num)
    have hrec := ih (fun w hw => h w (by simp at hw ⊢; tauto))
    simp only [utf8Encode, List.length_append, List.length_cons] at hrec ⊢
    omega
  | case6 u v rest2 hhi hlo ih =>
    intro h
    unfold utf16ToScalars
    rw [if_neg hhi, if_pos hlo]
    have h3 : (utf8EncodeChar 0xFFFD).length ≤ 3 := utf8EncodeChar_length_le_three _ (by norm_num)
    have hrec := ih (fun w hw => h w (by simp at hw ⊢; tauto))
    simp only [utf8Encode, List.length_append, List.length_cons] at hrec ⊢
    omega
  | case7 u v rest2 hhi hlo ih =>
    intro h
    unfold utf16ToScalars
    rw [if_neg hhi, if_neg hlo]
    have h3 := utf8EncodeChar_length_le_three u (by have := h u (by simp); omega)
    have hrec := ih (fun w hw => h w (by simp at hw ⊢; tauto))
    simp only [utf8Encode, List.length_append, List.length_cons] at hrec ⊢
    omega

/-! ## Round-trip induction for claim C1 -/

theorem toDH_true (v : CVal) : toDH true v = toD v := by
  cases v <;> simp [toDH, toD]

theorem nullcheck_toDH (v : CVal) : nullcheck (toDH false v) = toD v := by
  cases v <;> simp [toDH, toD, nullcheck]

theorem specWriteHead_length_pos (mt n : ℕ) : 1 ≤ (specWriteHead mt n).length := by
  unfold specWriteHead
  split_ifs <;> simp

theorem natToBEBytesF_length (fuel n k : ℕ) (h : n < 256 ^ k) :
    (natToBEBytesF fuel n).length ≤ k := by
  induction fuel generalizing n k with
  | zero => simp [natToBEBytesF]
  | succ fuel ih =>
    unfold natToBEBytesF
    by_cases h0 : n = 0
    · simp [h0]
    · rw [if_neg h0]
      have hk : k ≠ 0 := by
        rintro rfl
        simp at h
        omega
      have : n / 256 < 256 ^ (k - 1) := by
        have h256 : (256 : ℕ) ^ k = 256 ^ (k - 1) * 256 := by
          conv_lhs => rw [show k = (k - 1) + 1 by omega]
          ring
        rw [Nat.div_lt_iff_lt_mul (by norm_num)]
        omega
      have hrec := ih (n / 256) (k - 1) this
      simp only [List.length_append, List.length_singleton]
      omega

theorem natToBEBytes_length_le (n k : ℕ) (hk : 1 ≤ k) (h : n < 256 ^ k) :
    (natToBEBytes n).length ≤ k := by
  unfold natToBEBytes
  by_cases h0 : n = 0
  · simp [h0]
    omega
  · rw [if_neg h0]
    exact natToBEBytesF_length n n k h

/-- Decoding the output of `_pushByteString`. -/
theorem decodeItem_pushByteString (f : ℕ) (bs : List ℕ) (h : bs.length ≤ maxSafeInteger)
    (l : List ℕ) (hp pi : Bool) :
    decodeItem (f + 1) (pushByteString bs ++ l) hp pi = .ok (.val (.bytes bs), l) := by
  have he : pushByteString bs = specWriteHead 2 bs.length ++ bs := by
    unfold pushByteString
    rw [pushInt_eq_specWriteHead _ 2 _ h]
  obtain ⟨b, t, hbt, hdiv, h28, hra⟩ :=
    specWriteHead_consume 2 bs.length (by omega) (by unfold maxSafeInteger at h; omega) (bs ++ l)
  rw [he, List.append_assoc, hbt]
  simp only [decodeItem]
  rw [hra, hdiv]
  have hread : readN bs.length (bs ++ l) = .ok (bs, l) := by
    unfold readN
    rw [if_pos (by simp), List.take_left, List.drop_left]
  simp [hread]

mutual

/-- Decoding the encoder's output: any item of claim C1's domain, with any
fuel at least its `szC` measure, in any position. -/
theorem decC (v : CVal) (hw : wfC v = true) (fuel : ℕ) (hf : szC v ≤ fuel)
    (l : List ℕ) (hp pi : Bool) :
    decodeItem fuel (encC v ++ l) hp pi = .ok (.val (toDH hp v), l) := by
  cases v with
  | uint n =>
    have hw' : n < 2 ^ 64 := by simpa [wfC] using hw
    by_cases hn : n ≤ maxSafeInteger
    · obtain ⟨f, rfl⟩ : ∃ f, fuel = f + 1 := ⟨fuel - 1, by simp [szC, hn] at hf; omega⟩
      have he : encC (.uint n) = specWriteHead 0 n := by
        rw [encC, if_pos hn, pushNumber_nat n hn]
      obtain ⟨b, t, hbt, hdiv, h28, hra⟩ := specWriteHead_consume 0 n (by omega) hw' l
      rw [he, hbt]
      simp only [decodeItem]
      rw [hra, hdiv]
      simp [toDH, toD]
    · obtain ⟨f2, rfl⟩ : ∃ f2, fuel = f2 + 2 :=
        ⟨fuel - 2, by simp [szC, hn] at hf; omega⟩
      rw [encC, if_neg hn]
      have ho : ¬ ((n : ℤ) < 0) := not_lt.mpr (Int.natCast_nonneg n)
      have htag : pushJSBigint (n : ℤ) false =
          specWriteHead 6 2 ++ pushByteString (natToBEBytes n) := by
        simp only [pushJSBigint, pushTag, ho, if_false, Bool.false_and, Bool.false_eq_true,
          Int.toNat_natCast]
        rw [pushInt_eq_specWriteHead 2 6 _ (by norm_num [maxSafeInteger])]
      have hblen : (natToBEBytes n).length ≤ maxSafeInteger := by
        have := natToBEBytes_length_le n 8 (by norm_num) (by norm_num at hw' ⊢; omega)
        unfold maxSafeInteger
        omega
      obtain ⟨b, t, hbt, hdiv, h28, hra⟩ :=
        specWriteHead_consume 6 2 (by omega) (by norm_num) (pushByteString (natToBEBytes n) ++ l)
      rw [htag, List.append_assoc, hbt]
      simp only [decodeItem]
      rw [hra, hdiv]
      have hinner := decodeItem_pushByteString (f2) (natToBEBytes n) hblen l true false
      simp [hinner, Tagged.convert, builtinTag, parseBE_natToBEBytes, toDH, toD]
  | nint n =>
    have hw' : n < 2 ^ 64 := by simpa [wfC] using hw
    by_cases hn : n ≤ maxSafeInteger
    · obtain ⟨f, rfl⟩ : ∃ f, fuel = f + 1 := ⟨fuel - 1, by simp [szC, hn] at hf; omega⟩
      have he : encC (.nint n) = specWriteHead 1 n := by
        rw [encC, if_pos hn, pushNumber_negSucc n hn]
      obtain ⟨b, t, hbt, hdiv, h28, hra⟩ := specWriteHead_consume 1 n (by omega) hw' l
      rw [he, hbt]
      simp only [decodeItem]
      rw [hra, hdiv]
      simp [toDH, toD]
    · obtain ⟨f2, rfl⟩ : ∃ f2, fuel = f2 + 2 :=
        ⟨fuel - 2, by simp [szC, hn] at hf; omega⟩
      rw [encC, if_neg hn]
      have hneg : (Int.negSucc n : ℤ) < 0 := Int.negSucc_lt_zero n
      have hmag : (-(Int.negSucc n : ℤ) - 1).toNat = n := by
        rw [Int.neg_negSucc]
        simp
      have htag : pushJSBigint (Int.negSucc n) false =
          specWriteHead 6 3 ++ pushByteString (natToBEBytes n) := by
        simp only [pushJSBigint, pushTag, hneg, if_true, Bool.false_and, Bool.false_eq_true,
          if_false, hmag]
        rw [pushInt_eq_specWriteHead 3 6 _ (by norm_num [maxSafeInteger])]
      have hblen : (natToBEBytes n).length ≤ maxSafeInteger := by
        have := natToBEBytes_length_le n 8 (by norm_num) (by norm_num at hw' ⊢; omega)
        unfold maxSafeInteger
        omega
      obtain ⟨b, t, hbt, hdiv, h28, hra⟩ :=
        specWriteHead_consume 6 3 (by omega) (by norm_num) (pushByteString (natToBEBytes n) ++ l)
      rw [htag, List.append_assoc, hbt]
      simp only [decodeItem]
      rw [hra, hdiv]
      have hinner := decodeItem_pushByteString (f2) (natToBEBytes n) hblen l true false
      simp [hinner, Tagged.convert, builtinTag, parseBE_natToBEBytes, toDH, toD]
  | bool b =>
    obtain ⟨f, rfl⟩ : ∃ f, fuel = f + 1 := ⟨fuel - 1, by simp [szC] at hf; omega⟩
    cases b <;>
      simp [encC, TRUE_BYTE, FALSE_BYTE, decodeItem, readArg, Simple.decode, toDH, toD]
  | null =>
    obtain ⟨f, rfl⟩ : ∃ f, fuel = f + 1 := ⟨fuel - 1, by simp [szC] at hf; omega⟩
    cases hp <;>
      simp [encC, NULL_BYTE, decodeItem, readArg, Simple.decode, toDH, toD]
  | str cu =>
    obtain ⟨f, rfl⟩ : ∃ f, fuel = f + 1 := ⟨fuel - 1, by simp [szC] at hf; omega⟩
    have hw' :
        cu.length < 2 ^ 32 ∧ (∀ u ∈ cu, u < 2 ^ 16) ∧ validUtf16 cu = true := by
      simp [wfC, List.all_eq_true] at hw
      tauto
    obtain ⟨hlen, hunits, hvu⟩ := hw'
    have hbuf : (utf8Encode (utf16ToScalars cu)).length ≤ 3 * cu.length :=
      utf8Encode_utf16_length cu hunits
    have hbmax : (utf8Encode (utf16ToScalars cu)).length ≤ maxSafeInteger := by
      unfold maxSafeInteger
      norm_num at hlen ⊢
      omega
    have he : encC (.str cu) =
        specWriteHead 3 (utf8Encode (utf16ToScalars cu)).length ++ utf8Encode (utf16ToScalars cu) := by
      rw [encC]
      show pushInt (utf8Encode (utf16ToScalars cu)).length 3
          (.fin (utf8Encode (utf16ToScalars cu)).length) ++ utf8Encode (utf16ToScalars cu) = _
      rw [pushInt_eq_specWriteHead _ 3 _ hbmax]
    obtain ⟨b, t, hbt, hdiv, h28, hra⟩ :=
      specWriteHead_consume 3 (utf8Encode (utf16ToScalars cu)).length (by omega)
        (by unfold maxSafeInteger at hbmax; omega) (utf8Encode (utf16ToScalars cu) ++ l)
    rw [he, List.append_assoc, hbt]
    simp only [decodeItem]
    rw [hra, hdiv]
    have hread : readN (utf8Encode (utf16ToScalars cu)).length
        (utf8Encode (utf16ToScalars cu) ++ l) = .ok (utf8Encode (utf16ToScalars cu), l) := by
      unfold readN
      rw [if_pos (by simp), List.take_left, List.drop_left]
    have hdecu : utf8Decode (utf8Encode (utf16ToScalars cu)) = some (utf16ToScalars cu) :=
      utf8Decode_encode _ (utf16ToScalars_valid cu hunits)
    simp [hread, hdecu, toDH, toD]
  | bytes bs =>
    obtain ⟨f, rfl⟩ : ∃ f, fuel = f + 1 := ⟨fuel - 1, by simp [szC] at hf; omega⟩
    have hlen : bs.length ≤ maxSafeInteger := by
      simp [wfC] at hw
      tauto
    rw [show encC (.bytes bs) = pushByteString bs from rfl]
    rw [decodeItem_pushByteString f bs hlen l hp pi]
    simp [toDH, toD]
  | arr vs =>
    obtain ⟨f, rfl⟩ : ∃ f, fuel = f + 1 := ⟨fuel - 1, by simp [szC] at hf; omega⟩
    have hwa : vs.length ≤ maxSafeInteger ∧ wfL vs = true := by
      simp [wfC] at hw
      tauto
    have he : encC (.arr vs) = specWriteHead 4 vs.length ++ encCList vs := by
      rw [encC, pushInt_eq_specWriteHead _ 4 _ hwa.1]
    obtain ⟨b, t, hbt, hdiv, h28, hra⟩ :=
      specWriteHead_consume 4 vs.length (by omega)
        (by have := hwa.1; unfold maxSafeInteger at this; omega) (encCList vs ++ l)
    rw [he, List.append_assoc, hbt]
    simp only [decodeItem]
    rw [hra, hdiv]
    have hrec := decL vs hwa.2 f (by simp [szC] at hf; omega) l
    simp [hrec, toDH, toD]
  | map es =>
    obtain ⟨f, rfl⟩ : ∃ f, fuel = f + 1 := ⟨fuel - 1, by simp [szC] at hf; omega⟩
    have hwa : es.length ≤ maxSafeInteger ∧ wfP es = true := by
      simp [wfC] at hw
      tauto
    have he : encC (.map es) = specWriteHead 5 es.length ++ encCPairs es := by
      rw [encC, pushInt_eq_specWriteHead _ 5 _ hwa.1]
    obtain ⟨b, t, hbt, hdiv, h28, hra⟩ :=
      specWriteHead_consume 5 es.length (by omega)
        (by have := hwa.1; unfold maxSafeInteger at this; omega) (encCPairs es ++ l)
    rw [he, List.append_assoc, hbt]
    simp only [decodeItem]
    rw [hra, hdiv]
    have hrec := decP es hwa.2 f (by simp [szC] at hf; omega) l
    simp [hrec, toDH, toD]

/-- Decoding a definite-length element list. -/
theorem decL (vs : List CVal) (hw : wfL vs = true) (fuel : ℕ) (hf : szL vs ≤ fuel)
    (l : List ℕ) :
    decodeListD fuel vs.length (encCList vs ++ l) = .ok (toDL vs, l) := by
  cases vs with
  | nil => simp [encCList, toDL, decodeListD]
  | cons v vs =>
    obtain ⟨f, rfl⟩ : ∃ f, fuel = f + 1 := ⟨fuel - 1, by simp [szL] at hf; omega⟩
    have hwv : wfC v = true ∧ wfL vs = true := by
      simp [wfL] at hw
      tauto
    have hfv : szC v ≤ f := by simp [szL] at hf; omega
    have hfl : szL vs ≤ f := by simp [szL] at hf; omega
    simp only [List.length_cons, encCList, List.append_assoc]
    simp only [decodeListD]
    rw [decC v hwv.1 f hfv (encCList vs ++ l) true false, toDH_true]
    simp [decL vs hwv.2 f hfl l, toDL]

/-- Decoding a definite-length entry list. -/
theorem decP (es : List (CVal × CVal)) (hw : wfP es = true) (fuel : ℕ) (hf : szP es ≤ fuel)
    (l : List ℕ) :
    decodePairsD fuel es.length (encCPairs es ++ l) = .ok (toDP es, l) := by
  cases es with
  | nil => simp [encCPairs, toDP, decodePairsD]
  | cons kv es =>
    obtain ⟨k, v, rfl⟩ : ∃ k v, kv = (k, v) := ⟨kv.1, kv.2, rfl⟩
    obtain ⟨f, rfl⟩ : ∃ f, fuel = f + 1 := ⟨fuel - 1, by simp [szP] at hf; omega⟩
    have hwv : wfC k = true ∧ wfC v = true ∧ wfP es = true := by
      simp [wfP] at hw
      tauto
    have hfk : szC k ≤ f := by simp [szP] at hf; omega
    have hfv : szC v ≤ f := by simp [szP] at hf; omega
    have hfe : szP es ≤ f := by simp [szP] at hf; omega
    simp only [List.length_cons, encCPairs, List.append_assoc]
    simp only [decodePairsD]
    rw [decC k hwv.1 f hfk (encC v ++ (encCPairs es ++ l)) true false, toDH_true]
    simp [decC v hwv.2.1 f hfv (encCPairs es ++ l) true false, toDH_true,
      decP es hwv.2.2 f hfe l, toDP]

end

theorem pushFloat_length_pos (x : JSNum) : 1 ≤ (pushFloat x).length := by
  cases x <;> simp only [pushFloat] <;> try simp
  split_ifs <;> simp

theorem pushInt_length_pos (n mt : ℕ) (orig : JSNum) : 1 ≤ (pushInt n mt orig).length := by
  unfold pushInt
  split_ifs <;> first | exact pushFloat_length_pos _ | simp

theorem pushNumber_length_pos (x : JSNum) : 1 ≤ (pushNumber x).length := by
  cases x with
  | nan => simp [pushNumber, BUF_NAN]
  | inf b => cases b <;> simp [pushNumber, BUF_INF_NEG, BUF_INF_POS]
  | negZero => simp [pushNumber, pushIntNum, BUF_NEG_ZERO]
  | fin q =>
    simp only [pushNumber]
    split_ifs with h
    · simp only [pushIntNum]
      split_ifs <;> exact pushInt_length_pos _ _ _
    · exact pushFloat_length_pos _

theorem pushByteString_length_pos (bs : List ℕ) : 1 ≤ (pushByteString bs).length := by
  unfold pushByteString
  have := pushInt_length_pos bs.length 2 (.fin bs.length)
  simp only [List.length_append]
  omega

theorem pushJSBigint_false_length (v : ℤ) : 2 ≤ (pushJSBigint v false).length := by
  have h1 : ∀ tag : ℕ, ∀ bs : List ℕ, 2 ≤ (pushTag tag ++ pushByteString bs).length := by
    intro tag bs
    have ha := pushInt_length_pos tag 6 (.fin tag)
    have hb := pushByteString_length_pos bs
    simp only [pushTag, List.length_append]
    omega
  simp only [pushJSBigint, Bool.false_and, Bool.false_eq_true, if_false]
  exact h1 _ _

mutual

/-- The fuel measure is within twice the encoded byte length. -/
theorem szBoundC (v : CVal) : szC v + 1 ≤ 2 * (encC v).length := by
  cases v with
  | uint n =>
    rw [encC]
    split_ifs with h
    · simp only [szC, if_pos h]
      calc 1 + 1 = 2 * 1 := by norm_num
        _ ≤ _ := Nat.mul_le_mul_left 2 (pushNumber_length_pos _)
    · simp only [szC, if_neg h]
      calc 2 + 1 ≤ 2 * 2 := by norm_num
        _ ≤ _ := Nat.mul_le_mul_left 2 (pushJSBigint_false_length _)
  | nint n =>
    rw [encC]
    split_ifs with h
    · simp only [szC, if_pos h]
      calc 1 + 1 = 2 * 1 := by norm_num
        _ ≤ _ := Nat.mul_le_mul_left 2 (pushNumber_length_pos _)
    · simp only [szC, if_neg h]
      calc 2 + 1 ≤ 2 * 2 := by norm_num
        _ ≤ _ := Nat.mul_le_mul_left 2 (pushJSBigint_false_length _)
  | bool b => cases b <;> simp [szC, encC]
  | null => simp [szC, encC]
  | str cu =>
    rw [encC]
    show szC (.str cu) + 1 ≤ 2 * (pushInt (utf8Encode (utf16ToScalars cu)).length 3
      (.fin (utf8Encode (utf16ToScalars cu)).length) ++ utf8Encode (utf16ToScalars cu)).length
    have := pushInt_length_pos (utf8Encode (utf16ToScalars cu)).length 3
      (.fin (utf8Encode (utf16ToScalars cu)).length)
    simp only [szC, List.length_append]
    omega
  | bytes bs =>
    rw [show encC (.bytes bs) = pushByteString bs from rfl]
    have := pushByteString_length_pos bs
    simp [szC]
    omega
  | arr vs =>
    rw [encC]
    have h1 := pushInt_length_pos vs.length 4 (.fin vs.length)
    have h2 := szBoundL vs
    simp only [szC, List.length_append]
    omega
  | map es =>
    rw [encC]
    have h1 := pushInt_length_pos es.length 5 (.fin es.length)
    have h2 := szBoundP es
    simp only [szC, List.length_append]
    omega

theorem szBoundL (vs : List CVal) : szL vs ≤ 2 * (encCList vs).length := by
  cases vs with
  | nil => simp [szL, encCList]
  | cons v vs =>
    have h1 := szBoundC v
    have h2 := szBoundL vs
    simp only [szL, encCList, List.length_append]
    omega

theorem szBoundP (es : List (CVal × CVal)) : szP es ≤ 2 * (encCPairs es).length := by
  cases es with
  | nil => simp [szP, encCPairs]
  | cons kv es =>
    obtain ⟨k, v⟩ := kv
    have h1 := szBoundC k
    have h2 := szBoundC v
    have h3 := szBoundP es
    simp only [szP, encCPairs, List.length_append]
    omega

end

/-! ## Claim theorems -/

/-- Claim C1: for every value `v` built only from unsigned integers up to
`2^64 − 1`, signed integers down to `-2^64`, booleans, `null`, UTF-8
strings, byte sequences, and arrays and maps of such values, decoding the
bytes produced by `encode(v)` yields a value equivalent to `v` (the
equivalence being the canonical correspondence `toD`: numbers and bignums
merge into integers, strings become their Unicode scalar sequences,
containers map pointwise).  The decoder is modelled from the
specification, `Decoder.js` being absent from the sources. -/
theorem claim_C1_decode_encode_roundtrip (v : CVal) (hw : wfC v = true) :
    Decoder.decodeFirstSync (Encoder.encode v) = .ok (toD v) := by
  unfold Decoder.decodeFirstSync Encoder.encode
  have hb := szBoundC v
  have h := decC v hw (2 * (encC v).length) (by omega) [] false false
  rw [List.append_nil] at h
  rw [h]
  simp [nullcheck_toDH]

/-- Witness for C1 at a concrete composite value: a map with a string key,
a nested array, an 8-byte integer, a large bignum-routed integer, a
negative integer, a byte string, booleans and `null`. -/
theorem claim_C1_witness :
    (wfC (.map [(.str [0x61], .arr [.uint 1, .nint 0, .bool true, .null]),
                (.bytes [1, 2, 3], .uint (2 ^ 64 - 1))]) = true) ∧
    Decoder.decodeFirstSync (Encoder.encode
        (.map [(.str [0x61], .arr [.uint 1, .nint 0, .bool true, .null]),
               (.bytes [1, 2, 3], .uint (2 ^ 64 - 1))])) =
      .ok (.map [(.str [0x61], .arr [.int 1, .int (-1), .bool true, .nullV]),
                 (.bytes [1, 2, 3], .int (2 ^ 64 - 1))]) := by
  refine ⟨by decide, ?_⟩
  have h := claim_C1_decode_encode_roundtrip
    (.map [(.str [0x61], .arr [.uint 1, .nint 0, .bool true, .null]),
           (.bytes [1, 2, 3], .uint (2 ^ 64 - 1))]) (by decide)
  rw [h]
  rfl

/-- Claim C4: for every 8-byte (additional info 27) integer header,
`parseCBORint` returns a native number exactly when the 64-bit big-endian
value is at most `2^53 − 1`, and an arbitrary-precision integer holding the
same value when it is larger; equivalently, the high-word test
`MAX_SAFE_HIGH < f` fires exactly for values above `2^53 − 1`. -/
theorem claim_C4_int64_native_vs_bignum (v : ℕ) (hv : v < 2 ^ 64) :
    parseCBORint 27 (beBytes 8 v) =
      .ok (if v ≤ 2 ^ 53 - 1 then JSInt.num v else JSInt.big v) ∧
    (MAX_SAFE_HIGH < parseBE ((beBytes 8 v).take 4) ↔ 2 ^ 53 - 1 < v) := by
  have hsplit := beBytes_split 4 4 v
  norm_num at hsplit
  have htake : (beBytes 8 v).take 4 = beBytes 4 (v / 4294967296) := by
    rw [hsplit, List.take_left' (length_beBytes 4 _)]
  have hdrop : (beBytes 8 v).drop 4 = beBytes 4 (v % 4294967296) := by
    rw [hsplit, List.drop_left' (length_beBytes 4 _)]
  have hf : parseBE ((beBytes 8 v).take 4) = v / 4294967296 := by
    rw [htake]
    exact parseBE_beBytes 4 _ (by norm_num; omega)
  have hg : parseBE (((beBytes 8 v).drop 4).take 4) = v % 4294967296 := by
    rw [hdrop, List.take_of_length_le (by rw [length_beBytes])]
    exact parseBE_beBytes 4 _ (by norm_num; omega)
  constructor
  · simp only [parseCBORint]
    rw [if_neg (by norm_num), if_neg (by norm_num), if_neg (by norm_num), if_pos trivial]
    rw [hf, hg]
    have hvv : v / 4294967296 * 0x100000000 + v % 4294967296 = v := by omega
    simp only [hvv, MAX_SAFE_HIGH]
    by_cases hc : (0x1fffff : ℕ) < v / 4294967296
    · rw [if_pos hc, if_neg (by omega)]
    · rw [if_neg hc, if_pos (by omega)]
  · rw [hf]
    simp only [MAX_SAFE_HIGH]
    omega

/-- Witness for C4 at `2^53`, the first value promoted to an
arbitrary-precision integer. -/
theorem claim_C4_witness :
    2 ^ 53 < 2 ^ 64 ∧
      (parseCBORint 27 (beBytes 8 (2 ^ 53)) =
          .ok (if 2 ^ 53 ≤ 2 ^ 53 - 1 then JSInt.num (2 ^ 53) else JSInt.big (2 ^ 53)) ∧
        (MAX_SAFE_HIGH < parseBE ((beBytes 8 (2 ^ 53)).take 4) ↔ 2 ^ 53 - 1 < 2 ^ 53)) :=
  ⟨by norm_num, claim_C4_int64_native_vs_bignum (2 ^ 53) (by norm_num)⟩

/-- Claim C5: `Simple.decode` on the BREAK value (`-1`, i.e. major type 7
additional info 31) yields the BREAK sentinel exactly when the enclosing
frame exists and is indefinite, and raises "Invalid BREAK" in every other
position; the decoder's item loop treats a BREAK byte the same way. -/
theorem claim_C5_break_only_inside_indefinite :
    ∀ hp pi : Bool,
      Simple.decode (-1) hp pi =
        (if hp && pi then .ok .symBreak else .error "Invalid BREAK") ∧
      ∀ f : ℕ, ∀ l : List ℕ,
        decodeItem (f + 1) (0xff :: l) hp pi =
          (if hp && pi then .ok (.brk, l) else .error "Invalid BREAK") := by
  intro hp pi
  cases hp <;> cases pi <;> exact ⟨rfl, fun f l => rfl⟩

/-- Claim C2 (counterexample): the head is not minimal-length for every
unsigned integer the encoder accepts.  `_pushIntNum` on the accepted
integer-valued number `2^53` (above `MAX_SAFE_INTEGER`) falls back to a
single-precision float encoding `fa 5a 00 00 00` instead of the minimal
8-byte-argument head `1b 00 20 00 00 00 00 00 00`. -/
theorem claim_C2_counterexample :
    pushIntNum (.fin (mkRat (2 ^ 53) 1)) = [0xfa, 0x5a, 0x00, 0x00, 0x00] ∧
    pushIntNum (.fin (mkRat (2 ^ 53) 1)) ≠ specWriteHead 0 (2 ^ 53) := by
  constructor
  · decide
  · decide

/-- Claim C2 (amended): the emitted head is minimal-length — matching the
specification's `write_head` — for every argument up to `2^53 − 1`
(`Number.MAX_SAFE_INTEGER`), for every major type; number arguments above
that fall back to float encoding, while integers up to `2^64 − 1` presented
as bigints receive a minimal head through `_pushJSBigint` with
`collapseBigIntegers`. -/
theorem claim_C2_minimal_head :
    (∀ n mt : ℕ, ∀ orig : JSNum, n ≤ maxSafeInteger →
      pushInt n mt orig = specWriteHead mt n) ∧
    (∀ n : ℕ, n < 2 ^ 64 → pushJSBigint (n : ℤ) true = specWriteHead 0 n) := by
  constructor
  · exact fun n mt orig hn => pushInt_eq_specWriteHead n mt orig hn
  · intro n hn
    have ho : ¬((n : ℤ) < 0) := not_lt.mpr (Int.natCast_nonneg n)
    simp only [pushJSBigint, ho, if_false, Int.toNat_natCast]
    rw [if_pos (by simp; omega)]
    by_cases h32 : n ≤ 0xffffffff
    · rw [if_pos h32]
      exact pushInt_eq_specWriteHead n 0 _ (by simp only [maxSafeInteger]; omega)
    · rw [if_neg h32]
      have hsplit := beBytes_split 4 4 n
      norm_num at hsplit
      simp only [specWriteHead]
      rw [if_neg (by omega), if_neg (by omega), if_neg (by omega), if_neg (by omega),
        hsplit]

/-- Witness for the amended C2: a 4-byte-argument head through `_pushInt`
and an 8-byte-argument head through the collapsing bigint path. -/
theorem claim_C2_witness :
    pushInt 1000000 0 (.fin 1000000) = specWriteHead 0 1000000 ∧
    pushJSBigint ((2 ^ 64 - 1 : ℕ) : ℤ) true = specWriteHead 0 (2 ^ 64 - 1) :=
  ⟨claim_C2_minimal_head.1 1000000 0 _ (by norm_num [maxSafeInteger]),
   claim_C2_minimal_head.2 (2 ^ 64 - 1) (by norm_num)⟩

/-! ### Loop-detector set lemmas (claim C6) -/

mutual

theorem pushAnyD_subset (v : OVal) (s s2 : Finset ℕ) (h : pushAnyD v s = .ok s2) :
    s ⊆ s2 := by
  cases v with
  | prim =>
    simp only [pushAnyD] at h
    injection h with h2
    exact h2 ▸ Finset.Subset.refl s
  | arr id l =>
    simp only [pushAnyD] at h
    by_cases hm : id ∈ s
    · rw [if_pos hm] at h; cases h
    · rw [if_neg hm] at h
      exact (Finset.subset_insert id s).trans (pushListD_subset l _ _ h)
  | omap id es =>
    simp only [pushAnyD] at h
    by_cases hm : id ∈ s
    · rw [if_pos hm] at h; cases h
    · rw [if_neg hm] at h
      exact (Finset.subset_insert id s).trans (pushPairsD_subset es _ _ h)
  | pobj id fs =>
    simp only [pushAnyD] at h
    by_cases hm : id ∈ s
    · rw [if_pos hm] at h; cases h
    · rw [if_neg hm] at h
      cases heq : pushListD fs (insert id s) with
      | error e => rw [heq] at h; cases h
      | ok s3 =>
        rw [heq] at h
        injection h with h2
        have hsub := pushListD_subset fs (insert id s) s3 heq
        intro x hx
        rw [← h2]
        exact Finset.mem_erase.mpr
          ⟨fun hxid => hm (hxid ▸ hx), hsub (Finset.mem_insert_of_mem hx)⟩

theorem pushListD_subset (l : List OVal) (s s2 : Finset ℕ)
    (h : pushListD l s = .ok s2) : s ⊆ s2 := by
  cases l with
  | nil =>
    simp only [pushListD] at h
    injection h with h2
    exact h2 ▸ Finset.Subset.refl s
  | cons v vs =>
    simp only [pushListD] at h
    cases heq : pushAnyD v s with
    | error e => rw [heq] at h; cases h
    | ok s3 =>
      rw [heq] at h
      exact (pushAnyD_subset v s s3 heq).trans (pushListD_subset vs s3 s2 h)

theorem pushPairsD_subset (es : List (OVal × OVal)) (s s2 : Finset ℕ)
    (h : pushPairsD es s = .ok s2) : s ⊆ s2 := by
  cases es with
  | nil =>
    simp only [pushPairsD] at h
    injection h with h2
    exact h2 ▸ Finset.Subset.refl s
  | cons kv rest =>
    obtain ⟨k, v⟩ := kv
    simp only [pushPairsD] at h
    cases heq : pushAnyD k s with
    | error e => rw [heq] at h; cases h
    | ok s3 =>
      rw [heq] at h
      dsimp only at h
      cases heq2 : pushAnyD v s3 with
      | error e => rw [heq2] at h; cases h
      | ok s4 =>
        rw [heq2] at h
        exact ((pushAnyD_subset k s s3 heq).trans (pushAnyD_subset v s3 s4 heq2)).trans
          (pushPairsD_subset rest s4 s2 h)

end

/-- Claim C6 (counterexample): the detector-set identities are not removed
on exit for every container: encoding the empty array with identity `0`
from an empty detector set succeeds and leaves `0` in the set (only the
generic object branch of `_pushObject` deletes; the array and map branches
return before the delete). -/
theorem claim_C6_counterexample :
    pushAnyD (.arr 0 []) ∅ = .ok {0} ∧ (0 : ℕ) ∈ ({0} : Finset ℕ) := by
  constructor
  · rfl
  · decide

/-- Claim C6 (amended): with `detectLoops` enabled, entering any container
whose identity is already in the detector set raises "Loop detected"; a
successful encode of a container otherwise keeps its identity in the final
set for arrays and maps (the semantic-type converters return before the
delete), while the generic object branch removes its identity on exit. -/
theorem claim_C6_detector_set :
    (∀ id : ℕ, ∀ l : List OVal, ∀ es : List (OVal × OVal), ∀ s : Finset ℕ, id ∈ s →
      pushAnyD (.arr id l) s = .error loopErr ∧
      pushAnyD (.omap id es) s = .error loopErr ∧
      pushAnyD (.pobj id l) s = .error loopErr) ∧
    (∀ id : ℕ, ∀ l : List OVal, ∀ s s2 : Finset ℕ,
      pushAnyD (.arr id l) s = .ok s2 → id ∈ s2) ∧
    (∀ id : ℕ, ∀ es : List (OVal × OVal), ∀ s s2 : Finset ℕ,
      pushAnyD (.omap id es) s = .ok s2 → id ∈ s2) ∧
    (∀ id : ℕ, ∀ l : List OVal, ∀ s s2 : Finset ℕ,
      pushAnyD (.pobj id l) s = .ok s2 → id ∉ s2) := by
  refine ⟨?_, ?_, ?_, ?_⟩
  · intro id l es s hm
    refine ⟨?_, ?_, ?_⟩ <;> simp [pushAnyD, hm]
  · intro id l s s2 h
    simp only [pushAnyD] at h
    by_cases hm : id ∈ s
    · rw [if_pos hm] at h; cases h
    · rw [if_neg hm] at h
      exact pushListD_subset l _ _ h (Finset.mem_insert_self id s)
  · intro id es s s2 h
    simp only [pushAnyD] at h
    by_cases hm : id ∈ s
    · rw [if_pos hm] at h; cases h
    · rw [if_neg hm] at h
      exact pushPairsD_subset es _ _ h (Finset.mem_insert_self id s)
  · intro id l s s2 h
    simp only [pushAnyD] at h
    by_cases hm : id ∈ s
    · rw [if_pos hm] at h; cases h
    · rw [if_neg hm] at h
      cases heq : pushListD l (insert id s) with
      | error e => rw [heq] at h; cases h
      | ok s3 =>
        rw [heq] at h
        injection h with h2
        rw [← h2]
        exact Finset.not_mem_erase id s3

/-- Witness for the amended C6: a present identity raises the loop error;
an array's identity stays in the set; a generic object's identity does
not. -/
theorem claim_C6_witness :
    pushAnyD (.arr 5 []) {5} = .error loopErr ∧
    (5 : ℕ) ∈ ({5} : Finset ℕ) ∧
    (5 : ℕ) ∉ (∅ : Finset ℕ) :=
  ⟨(claim_C6_detector_set.1 5 [] [] {5} (by decide)).1,
   claim_C6_detector_set.2.1 5 [] ∅ {5} rfl,
   claim_C6_detector_set.2.2.2 5 [] ∅ ∅ rfl⟩

/-- Claim C8 (counterexample): a caller-installed strict interpreter that
raises does not suspend the isolation — its error is caught like any other:
converting tag `0` with a user converter that always throws returns the
wrapper with `err` set instead of propagating the error. -/
theorem claim_C8_counterexample :
    Tagged.convert ⟨0, .nullV, none⟩
        (fun t => if t = 0 then some (fun _ => .error "strict failure") else none) =
      .inl ⟨0, .nullV, some "strict failure"⟩ := rfl

/-- Claim C8 (amended): for every decoded tag whose effective interpreter
(the user converter for the tag when installed, else the built-in) throws
during conversion, the error is attached to the wrapper's `err` field and
the wrapper is returned instead of the error propagating — including for
caller-installed strict interpreters; the `catch` is unconditional. -/
theorem claim_C8_interpreter_isolation (t : Tagged) (conv : ℕ → Option TagConv)
    (f : TagConv) (e : String)
    (hf : conv t.tag = some f ∨ (conv t.tag = none ∧ builtinTag t.tag = some f))
    (he : f t.value = .error e) :
    Tagged.convert t conv = .inl ⟨t.tag, t.value, some e⟩ := by
  rcases hf with hf | ⟨hn, hb⟩
  · simp only [Tagged.convert, hf, he]
  · simp only [Tagged.convert, hn, hb, he]

/-- Witness for the amended C8: the built-in bignum interpreter (tag 2) on
a non-byte-string payload throws "Invalid bignum encoding", which lands on
`err` with the wrapper returned. -/
theorem claim_C8_witness :
    Tagged.convert ⟨2, .nullV, none⟩ (fun _ => none) =
      .inl ⟨2, .nullV, some "Invalid bignum encoding"⟩ :=
  claim_C8_interpreter_isolation ⟨2, .nullV, none⟩ (fun _ => none) _
    "Invalid bignum encoding" (Or.inr ⟨rfl, rfl⟩) rfl

/-- Claim C9 (code bug): chunk boundaries in `encodeIndefinite`'s string
loop do split UTF-16 surrogate pairs.  Encoding the single-character string
`"😀"` (U+1F600) with `chunkSize = 1` cuts between the
surrogates; each half becomes a lone surrogate that the UTF-8 encoder
replaces with U+FFFD (`ef bf bd`), so the emitted chunks no longer encode
U+1F600 — whose correct UTF-8, produced by `_pushString` on the whole
string, is `f0 9f 98 80`. -/
theorem claim_C9_surrogate_split :
    encodeIndefiniteStr [0xD83D, 0xDE00] 1 =
      [0x7f, 0x63, 0xEF, 0xBF, 0xBD, 0x63, 0xEF, 0xBF, 0xBD, 0xff] ∧
    utf8Encode (utf16ToScalars [0xD83D, 0xDE00]) = [0xF0, 0x9F, 0x98, 0x80] :=
  ⟨rfl, rfl⟩

/-! ### Bigint encoding shape (claim C7) -/

theorem bigLimit_eq_pow256 : bigLimit = 256 ^ 2 ^ 29 := by
  rw [bigLimit, show (256 : ℕ) = 2 ^ 8 from by norm_num, ← pow_mul]
  congr 1

theorem two_pow_64_lt_bigLimit : 2 ^ 64 < bigLimit := by
  rw [bigLimit]
  exact Nat.pow_lt_pow_right (by norm_num) (by norm_num)

theorem pushJSBigint_cases (o mt tag : ℕ) (collapse : Bool)
    (htag : tag ≤ 23) (ho : o < bigLimit) :
    (if collapse && decide (o ≤ 0xffffffffffffffff) then
       if o ≤ 0xffffffff then pushInt o mt (.fin o)
       else ((mt <<< 5) ||| 27) :: (beBytes 4 (o / 0x100000000) ++ beBytes 4 (o % 0x100000000))
     else pushTag tag ++ pushByteString (natToBEBytes o)) =
      (if collapse = true ∧ o ≤ 2 ^ 64 - 1 then
         if o ≤ 2 ^ 32 - 1 then specWriteHead mt o
         else ((mt <<< 5) ||| 27) :: beBytes 8 o
       else specWriteHead 6 tag ++
         (specWriteHead 2 (natToBEBytes o).length ++ natToBEBytes o)) := by
  by_cases hcol : collapse = true ∧ o ≤ 2 ^ 64 - 1
  · rw [if_pos (by rw [hcol.1, Bool.true_and, decide_eq_true_eq]; omega), if_pos hcol]
    by_cases h32 : o ≤ 0xffffffff
    · rw [if_pos h32, if_pos (by omega)]
      exact pushInt_eq_specWriteHead o mt _ (by simp only [maxSafeInteger]; omega)
    · rw [if_neg h32, if_neg (by omega)]
      have hsplit := beBytes_split 4 4 o
      norm_num at hsplit
      rw [hsplit]
  · rw [if_neg ?hb, if_neg hcol]
    case hb =>
      intro hcontra
      rw [Bool.and_eq_true, decide_eq_true_eq] at hcontra
      exact hcol ⟨hcontra.1, by omega⟩
    have hlen : (natToBEBytes o).length ≤ 2 ^ 29 := by
      apply natToBEBytes_length_le o (2 ^ 29) (by norm_num)
      calc o < bigLimit := ho
        _ = 256 ^ 2 ^ 29 := bigLimit_eq_pow256
    rw [pushTag, pushByteString]
    rw [pushInt_eq_specWriteHead tag 6 _ (by simp only [maxSafeInteger]; omega)]
    rw [pushInt_eq_specWriteHead (natToBEBytes o).length 2 _
      (by simp only [maxSafeInteger]; omega)]

/-- Claim C7: for every arbitrary-precision integer `v` of magnitude below
`bigLimit = 2^(2^32)` (so that the byte-string head stays in the
safe-integer range): if `v < 0` the encoder uses tag 3 with magnitude
`-v - 1`, else tag 2 with magnitude `v`; with `collapseBigIntegers` set and
the magnitude at most `2^64 − 1`, the magnitude goes out as an ordinary
minimal-width integer when at most `2^32 − 1` and as head `(mt<<5)|27` plus
exactly 8 big-endian bytes otherwise; in all remaining cases the output is
`TAG(tag)` wrapping the byte string of the magnitude's minimal big-endian
bytes. -/
theorem claim_C7_bigint_encoding (v : ℤ) (collapse : Bool)
    (hlo : -((bigLimit : ℕ) : ℤ) ≤ v) (hhi : v < ((bigLimit : ℕ) : ℤ)) :
    pushJSBigint v collapse =
      (let mt : ℕ := if v < 0 then 1 else 0
       let tag : ℕ := if v < 0 then 3 else 2
       let mag : ℕ := if v < 0 then (-v - 1).toNat else v.toNat
       if collapse = true ∧ mag ≤ 2 ^ 64 - 1 then
         if mag ≤ 2 ^ 32 - 1 then specWriteHead mt mag
         else ((mt <<< 5) ||| 27) :: beBytes 8 mag
       else specWriteHead 6 tag ++
         (specWriteHead 2 (natToBEBytes mag).length ++ natToBEBytes mag)) := by
  by_cases hneg : v < 0
  · have hge : (0 : ℤ) ≤ -v - 1 := by omega
    have ho : (-v - 1).toNat < bigLimit := by
      have h2 : (((-v - 1).toNat : ℤ)) < ((bigLimit : ℕ) : ℤ) := by
        rw [Int.toNat_of_nonneg hge]
        omega
      exact_mod_cast h2
    simp only [pushJSBigint, hneg, if_true]
    exact pushJSBigint_cases (-v - 1).toNat 1 3 collapse (by norm_num) ho
  · have hge : (0 : ℤ) ≤ v := not_lt.mp hneg
    have ho : v.toNat < bigLimit := by
      have h2 : ((v.toNat : ℤ)) < ((bigLimit : ℕ) : ℤ) := by
        rw [Int.toNat_of_nonneg hge]
        exact hhi
      exact_mod_cast h2
    simp only [pushJSBigint, hneg, if_false]
    exact pushJSBigint_cases v.toNat 0 2 collapse (by norm_num) ho

/-- Witness for C7 at `v = -(2^64)`, `collapse = true`: tag-3 magnitude
`2^64 − 1` still collapses, through the 8-byte-argument branch. -/
theorem claim_C7_witness :
    (-((bigLimit : ℕ) : ℤ) ≤ -(2 ^ 64 : ℤ)) ∧ (-(2 ^ 64 : ℤ) < ((bigLimit : ℕ) : ℤ)) ∧
    pushJSBigint (-(2 ^ 64) : ℤ) true =
      (let mt : ℕ := if (-(2 ^ 64) : ℤ) < 0 then 1 else 0
       let tag : ℕ := if (-(2 ^ 64) : ℤ) < 0 then 3 else 2
       let mag : ℕ := if (-(2 ^ 64) : ℤ) < 0 then (-(-(2 ^ 64) : ℤ) - 1).toNat
                      else (-(2 ^ 64) : ℤ).toNat
       if true = true ∧ mag ≤ 2 ^ 64 - 1 then
         if mag ≤ 2 ^ 32 - 1 then specWriteHead mt mag
         else ((mt <<< 5) ||| 27) :: beBytes 8 mag
       else specWriteHead 6 tag ++
         (specWriteHead 2 (natToBEBytes mag).length ++ natToBEBytes mag)) := by
  have h1 : ((2 ^ 64 : ℕ) : ℤ) < ((bigLimit : ℕ) : ℤ) := by
    exact_mod_cast two_pow_64_lt_bigLimit
  have h2 : ((2 ^ 64 : ℕ) : ℤ) = (2 : ℤ) ^ 64 := by norm_cast
  rw [h2] at h1
  exact ⟨by linarith, by linarith,
    claim_C7_bigint_encoding (-(2 ^ 64)) true (by linarith) (by linarith)⟩

/-! ### Exactness of the rounding test (claims C3 and C10)

`valExact` was written as the integer-level (kernel-evaluable) form of the
comparison `valBits mb eb u = x`.  The following lemmas prove that
equivalence, so that the float-policy claims can be stated against the
interpretation `valBits` instead of against `valExact` itself. -/

theorem rat_eq_div_pow_iff (q : ℚ) (a : ℤ) (j : ℕ) :
    q = (a : ℚ) / 2 ^ j ↔ q.num * 2 ^ j = a * q.den := by
  have hden : ((q.den : ℚ)) ≠ 0 := by
    exact_mod_cast q.den_nz
  have hpow : ((2 : ℚ) ^ j) ≠ 0 := by positivity
  constructor
  · intro h
    rw [← Rat.num_div_den q] at h
    rw [div_eq_div_iff hden hpow] at h
    exact_mod_cast h
  · intro h
    have h2 : (q.num : ℚ) * 2 ^ j = (a : ℚ) * q.den := by exact_mod_cast h
    rw [← Rat.num_div_den q, div_eq_div_iff hden hpow]
    exact h2

theorem mul_pow_eq_cast_iff (z : ℤ) (jn P D : ℕ) (hP : 0 < P) (hD : 0 < D) :
    (z * 2 ^ jn = (P : ℤ) * D ↔ (0 ≤ z ∧ z.natAbs * 2 ^ jn = P * D)) ∧
    (z * 2 ^ jn = -((P : ℤ) * D) ↔ (z < 0 ∧ z.natAbs * 2 ^ jn = P * D)) := by
  have h2 : (0 : ℤ) < 2 ^ jn := by positivity
  have hPD : (0 : ℤ) < (P : ℤ) * D := by positivity
  constructor
  · constructor
    · intro h
      have hz : 0 ≤ z := by
        by_contra hneg
        push_neg at hneg
        have hlt : z * 2 ^ jn < 0 := mul_neg_of_neg_of_pos hneg h2
        linarith
      refine ⟨hz, ?_⟩
      have habs := congrArg Int.natAbs h
      simpa [Int.natAbs_mul, Int.natAbs_pow] using habs
    · rintro ⟨hz, habs⟩
      have h1 : z = (z.natAbs : ℤ) := (Int.natAbs_of_nonneg hz).symm
      rw [h1]
      exact_mod_cast habs
  · constructor
    · intro h
      have hz : z < 0 := by
        by_contra hge
        push_neg at hge
        have hge2 : 0 ≤ z * 2 ^ jn := mul_nonneg hge (le_of_lt h2)
        linarith
      refine ⟨hz, ?_⟩
      have habs := congrArg Int.natAbs h
      simpa [Int.natAbs_mul, Int.natAbs_pow, Int.natAbs_neg] using habs
    · rintro ⟨hz, habs⟩
      have h1 : z = -(z.natAbs : ℤ) := by omega
      rw [h1, neg_mul]
      have h3 : ((z.natAbs : ℤ)) * 2 ^ jn = (P : ℤ) * D := by exact_mod_cast habs
      rw [h3]

theorem natAbs_cross_norm (p d M : ℕ) (K : ℤ) :
    (p * 2 ^ (-K).toNat = M * 2 ^ K.toNat * d) ↔
      (if 0 ≤ K then p = d * (M * 2 ^ K.toNat)
       else p * 2 ^ (-K).toNat = M * d) := by
  by_cases hK : 0 ≤ K
  · rw [if_pos hK, show (-K).toNat = 0 from Int.toNat_of_nonpos (by omega), pow_zero,
      mul_one]
    constructor
    · intro h; rw [h]; ring
    · intro h; rw [h]; ring
  · rw [if_neg hK, show K.toNat = 0 from Int.toNat_of_nonpos (by omega), pow_zero,
      mul_one]

theorem signed_scaled_eq_iff (q : ℚ) (c : Prop) [Decidable c] (M : ℕ) (hM : 0 < M)
    (K : ℤ) :
    ((if c then (-1 : ℚ) else 1) * M * qpow2 K = q) ↔
      ((q.num < 0 ↔ c) ∧
        (if 0 ≤ K then q.num.natAbs = q.den * (M * 2 ^ K.toNat)
         else q.num.natAbs * 2 ^ (-K).toNat = M * q.den)) := by
  have hden : 0 < q.den := q.pos
  have hq2 : qpow2 K = ((2 : ℚ) ^ K.toNat) / 2 ^ (-K).toNat := by
    rw [qpow2]
    by_cases hK : K < 0
    · rw [if_pos hK, show K.toNat = 0 from Int.toNat_of_nonpos (le_of_lt hK), pow_zero]
    · rw [if_neg hK, show (-K).toNat = 0 from Int.toNat_of_nonpos (by omega), pow_zero,
        div_one]
  rw [← natAbs_cross_norm q.num.natAbs q.den M K]
  by_cases hc : c
  · rw [if_pos hc]
    set A : ℤ := -((M * 2 ^ K.toNat : ℕ) : ℤ) with hA
    have hstep : ((-1 : ℚ) * M * qpow2 K = q) ↔ q = (A : ℚ) / 2 ^ (-K).toNat := by
      rw [hq2, hA]
      constructor
      · intro h; rw [← h]; push_cast; ring
      · intro h; rw [h]; push_cast; ring
    rw [hstep, rat_eq_div_pow_iff, hA, neg_mul,
      (mul_pow_eq_cast_iff q.num (-K).toNat (M * 2 ^ K.toNat) q.den (by positivity)
        hden).2]
    constructor
    · rintro ⟨h1, h2⟩
      exact ⟨⟨fun _ => hc, fun _ => h1⟩, h2⟩
    · rintro ⟨h1, h2⟩
      exact ⟨h1.mpr hc, h2⟩
  · rw [if_neg hc]
    have hstep : ((1 : ℚ) * M * qpow2 K = q) ↔
        q = (((M * 2 ^ K.toNat : ℕ) : ℤ) : ℚ) / 2 ^ (-K).toNat := by
      rw [hq2]
      constructor
      · intro h; rw [← h]; push_cast; ring
      · intro h; rw [h]; push_cast; ring
    rw [hstep, rat_eq_div_pow_iff,
      (mul_pow_eq_cast_iff q.num (-K).toNat (M * 2 ^ K.toNat) q.den (by positivity)
        hden).1]
    constructor
    · rintro ⟨h1, h2⟩
      exact ⟨⟨fun hlt => absurd hlt (not_lt.mpr h1), fun hcc => absurd hcc hc⟩, h2⟩
    · rintro ⟨h1, h2⟩
      exact ⟨not_lt.mp (fun hlt => hc (h1.mp hlt)), h2⟩

theorem valExact_iff_valBits (mb eb u : ℕ) (q : ℚ) (hq : q ≠ 0) :
    valExact mb eb u q = true ↔ valBits mb eb u = .fin q := by
  have hqnum : q.num ≠ 0 := Rat.num_ne_zero.mpr hq
  simp only [valExact, valBits]
  generalize u / 2 ^ (mb + eb) % 2 = S
  generalize u / 2 ^ mb % 2 ^ eb = E
  generalize u % 2 ^ mb = T
  by_cases h1 : E = 2 ^ eb - 1
  · rw [if_pos h1, if_pos h1]
    constructor
    · intro h; simp at h
    · intro h
      by_cases h2 : T = 0
      · rw [if_pos h2] at h; simp at h
      · rw [if_neg h2] at h; simp at h
  · rw [if_neg h1, if_neg h1]
    by_cases h2 : E = 0
    · subst h2
      by_cases h3 : T = 0
      · subst h3
        rw [if_pos ⟨rfl, rfl⟩, if_pos rfl, if_pos rfl]
        constructor
        · intro h
          rw [decide_eq_true_eq] at h
          exact absurd h hqnum
        · intro h
          by_cases h4 : S = 1
          · rw [if_pos h4] at h; simp at h
          · rw [if_neg h4] at h
            rw [JSNum.fin.injEq] at h
            exact absurd h.symm hq
      · rw [if_neg (fun hh => h3 hh.2), if_pos rfl, if_neg h3]
        simp only [eq_self_iff_true, if_true]
        rw [JSNum.fin.injEq]
        have hconv : ∀ A B : Prop, ∀ dA : Decidable A, ∀ dB : Decidable B,
            (((decide (q.num < 0) = decide (S = 1)) &&
              (if 0 ≤ (1 : ℤ) - (2 ^ (eb - 1) - 1) - mb then @decide A dA
               else @decide B dB)) = true)
              ↔ ((q.num < 0 ↔ S = 1) ∧
                  (if 0 ≤ (1 : ℤ) - (2 ^ (eb - 1) - 1) - mb then A else B)) := by
          intro A B dA dB
          by_cases hK : 0 ≤ (1 : ℤ) - (2 ^ (eb - 1) - 1) - mb
          · simp only [if_pos hK, Bool.and_eq_true, decide_eq_true_eq, decide_eq_decide]
          · simp only [if_neg hK, Bool.and_eq_true, decide_eq_true_eq, decide_eq_decide]
        rw [hconv]
        rw [← signed_scaled_eq_iff q (S = 1) T (Nat.pos_of_ne_zero h3)
          ((1 : ℤ) - (2 ^ (eb - 1) - 1) - mb)]
    · rw [if_neg (fun hh => h2 hh.1), if_neg h2]
      simp only [if_neg h2]
      rw [JSNum.fin.injEq]
      have hcast : (((2 ^ mb + T : ℕ) : ℚ)) = (2 : ℚ) ^ mb + (T : ℚ) := by
        push_cast; ring
      have hconv : ∀ A B : Prop, ∀ dA : Decidable A, ∀ dB : Decidable B,
          (((decide (q.num < 0) = decide (S = 1)) &&
            (if 0 ≤ (E : ℤ) - (2 ^ (eb - 1) - 1) - mb then @decide A dA
             else @decide B dB)) = true)
            ↔ ((q.num < 0 ↔ S = 1) ∧
                (if 0 ≤ (E : ℤ) - (2 ^ (eb - 1) - 1) - mb then A else B)) := by
        intro A B dA dB
        by_cases hK : 0 ≤ (E : ℤ) - (2 ^ (eb - 1) - 1) - mb
        · simp only [if_pos hK, Bool.and_eq_true, decide_eq_true_eq, decide_eq_decide]
        · simp only [if_neg hK, Bool.and_eq_true, decide_eq_true_eq, decide_eq_decide]
      rw [hconv]
      rw [← signed_scaled_eq_iff q (S = 1) (2 ^ mb + T) (by positivity)
        ((E : ℤ) - (2 ^ (eb - 1) - 1) - mb)]
      rw [hcast]

/-- Claim C3: `_pushNumber` obeys the float policy: NaN emits exactly
`f9 7e 00`; `+Infinity` emits `f9 7c 00` and `-Infinity` emits `f9 fc 00`;
negative zero emits `f9 80 00`, preserving the sign bit; every other
non-integer finite number `q` emits the 4-byte single-precision float
`fa ‖ bits32(q)` iff reading back the rounded float32 bits recovers exactly
`q`, and an 8-byte double `fb ‖ bits64(q)` otherwise. -/
theorem claim_C3_float_policy :
    pushNumber .nan = BUF_NAN ∧
    pushNumber (.inf false) = BUF_INF_POS ∧
    pushNumber (.inf true) = BUF_INF_NEG ∧
    pushNumber .negZero = BUF_NEG_ZERO ∧
    ∀ q : ℚ, q.den ≠ 1 →
      pushNumber (.fin q) =
        (if valBits 23 8 (fbits 23 8 q) = .fin q
         then ((7 <<< 5) ||| 26) :: beBytes 4 (fbits 23 8 q)
         else ((7 <<< 5) ||| 27) :: beBytes 8 (fbits 52 11 q)) := by
  refine ⟨rfl, rfl, rfl, rfl, ?_⟩
  intro q hden
  have hq : q ≠ 0 := fun h => hden (by rw [h]; rfl)
  have hiff := valExact_iff_valBits 23 8 (fbits 23 8 q) q hq
  simp only [pushNumber, if_neg hden, pushFloat, froundSame, float32Bytes, float64Bytes]
  by_cases hv : valBits 23 8 (fbits 23 8 q) = .fin q
  · rw [if_pos (hiff.mpr hv), if_pos hv]
  · rw [if_neg (fun hh => hv (hiff.mp hh)), if_neg hv]

/-- Witness for C3 at `q = 3/2`, a non-integer number (the float32
round-trip condition is left folded; the hypothesis is discharged by
evaluation). -/
theorem claim_C3_witness :
    (mkRat 3 2).den ≠ 1 ∧
    pushNumber (.fin (mkRat 3 2)) =
      (if valBits 23 8 (fbits 23 8 (mkRat 3 2)) = .fin (mkRat 3 2)
       then ((7 <<< 5) ||| 26) :: beBytes 4 (fbits 23 8 (mkRat 3 2))
       else ((7 <<< 5) ||| 27) :: beBytes 8 (fbits 52 11 (mkRat 3 2))) :=
  ⟨by decide, claim_C3_float_policy.2.2.2.2 (mkRat 3 2) (by decide)⟩

/-! ### Bit-level readings of `parseHalf` and `writeHalf` (claim C10) -/

theorem and_two_pow_eq (x i : ℕ) : x &&& 2 ^ i = (x / 2 ^ i % 2) * 2 ^ i := by
  rw [Nat.and_two_pow, Nat.testBit_to_div_mod]
  by_cases h : x / 2 ^ i % 2 = 1
  · simp [h]
  · have h0 : x / 2 ^ i % 2 = 0 := by omega
    simp [h, h0]

set_option maxRecDepth 8000 in
theorem byte_and_0x80 : ∀ b < 256, ((b &&& 128 ≠ 0) ↔ b / 128 % 2 = 1) := by decide

set_option maxRecDepth 8000 in
theorem byte_and_0x7C : ∀ b < 256, (b &&& 124) >>> 2 = b / 4 % 32 := by decide

set_option maxRecDepth 8000 in
theorem or_low_byte : ∀ a < 4, ∀ b < 256, ((a <<< 8) ||| b) = a * 256 + b := by decide

/-- `parseHalf` on the two bytes of a 16-bit value is exactly the binary16
interpretation `valBits 10 5`. -/
theorem parseHalf_val (s16 : ℕ) (h : s16 < 65536) :
    parseHalf (s16 / 256) (s16 % 256) = valBits 10 5 s16 := by
  have hb0 : s16 / 256 < 256 := by omega
  have hexp : ((s16 / 256) &&& 124) >>> 2 = s16 / 1024 % 32 := by
    rw [byte_and_0x7C (s16 / 256) hb0]
    omega
  have hmant : (((s16 / 256) &&& 3) <<< 8) ||| (s16 % 256) = s16 % 1024 := by
    have h3 : (s16 / 256) &&& 3 = s16 / 256 % 4 := by
      rw [show (3 : ℕ) = 2 ^ 2 - 1 from rfl]
      exact Nat.and_pow_two_sub_one_eq_mod _ 2
    rw [h3, or_low_byte (s16 / 256 % 4) (by omega) (s16 % 256) (by omega)]
    omega
  have hneg : ((s16 / 256) &&& 128 ≠ 0) ↔ (s16 / 32768 % 2 = 1) := by
    rw [byte_and_0x80 (s16 / 256) hb0]
    omega
  have hnegB : (decide (s16 / 256 &&& 128 ≠ 0)) = (decide (s16 / 32768 % 2 = 1)) :=
    decide_eq_decide.mpr hneg
  simp only [parseHalf, valBits]
  rw [hexp, hmant, hnegB]
  simp only [decide_eq_true_eq, Nat.cast_ofNat,
    show (2 : ℕ) ^ 10 = 1024 from by norm_num,
    show (2 : ℕ) ^ (10 + 5) = 32768 from by norm_num,
    show (2 : ℕ) ^ 5 = 32 from by norm_num,
    show (32 : ℕ) - 1 = 31 from by norm_num,
    show ((2 : ℤ) ^ (5 - 1) - 1) = 15 from by norm_num,
    show ((1 : ℤ) - 15 - 10) = -24 from by norm_num,
    show ((2 : ℚ) ^ 10) = 1024 from by norm_num]
  have hq24 : qpow2 (-24) = 1 / 2 ^ 24 := by
    rw [qpow2, if_pos (by norm_num : (-24 : ℤ) < 0),
      show ((-(-24 : ℤ)).toNat) = 24 from by omega]
  by_cases hE0 : s16 / 1024 % 32 = 0
  · rw [if_pos hE0, if_neg (by omega : ¬s16 / 1024 % 32 = 31), if_pos hE0]
    by_cases hT : s16 % 1024 = 0
    · rw [if_pos hT, if_pos hT]
    · rw [if_neg hT, if_neg hT, JSNum.fin.injEq, Rat.mkRat_eq_div, hq24]
      by_cases hS : s16 / 32768 % 2 = 1
      · rw [if_pos hS, if_pos hS]
        simp only [Int.cast_mul, Int.cast_neg, Int.cast_add, Int.cast_natCast,
          Int.cast_pow, Int.cast_ofNat, Nat.cast_pow, Nat.cast_ofNat, Nat.cast_one]
        ring
      · rw [if_neg hS, if_neg hS]
        simp only [Int.cast_mul, Int.cast_neg, Int.cast_add, Int.cast_natCast,
          Int.cast_pow, Int.cast_ofNat, Nat.cast_pow, Nat.cast_ofNat, Nat.cast_one]
        ring
  · rw [if_neg hE0]
    by_cases hE31 : s16 / 1024 % 32 = 31
    · rw [if_pos hE31, if_pos hE31]
      by_cases hT : s16 % 1024 = 0
      · rw [if_neg (by omega : ¬s16 % 1024 ≠ 0), if_pos hT]
      · rw [if_pos (hT : s16 % 1024 ≠ 0), if_neg hT]
    · rw [if_neg hE31, if_neg hE31, if_neg hE0]
      by_cases h25 : 25 ≤ s16 / 1024 % 32
      · rw [if_pos h25, JSNum.fin.injEq, Rat.mkRat_eq_div,
          show qpow2 (((s16 / 1024 % 32 : ℕ) : ℤ) - 15 - 10) =
              2 ^ (s16 / 1024 % 32 - 25) from by
            rw [qpow2, if_neg (by omega : ¬(((s16 / 1024 % 32 : ℕ) : ℤ) - 15 - 10 < 0)),
              show ((((s16 / 1024 % 32 : ℕ) : ℤ) - 15 - 10).toNat) =
                s16 / 1024 % 32 - 25 from by omega]]
        by_cases hS : s16 / 32768 % 2 = 1
        · rw [if_pos hS, if_pos hS]
          simp only [Int.cast_mul, Int.cast_neg, Int.cast_add, Int.cast_natCast,
            Int.cast_pow, Int.cast_ofNat, Nat.cast_pow, Nat.cast_ofNat, Nat.cast_one]
          ring
        · rw [if_neg hS, if_neg hS]
          simp only [Int.cast_mul, Int.cast_neg, Int.cast_add, Int.cast_natCast,
            Int.cast_pow, Int.cast_ofNat, Nat.cast_pow, Nat.cast_ofNat, Nat.cast_one]
          ring
      · rw [if_neg h25, JSNum.fin.injEq, Rat.mkRat_eq_div,
          show qpow2 (((s16 / 1024 % 32 : ℕ) : ℤ) - 15 - 10) =
              1 / 2 ^ (25 - s16 / 1024 % 32) from by
            rw [qpow2, if_pos (by omega : (((s16 / 1024 % 32 : ℕ) : ℤ) - 15 - 10) < 0),
              show ((-(((s16 / 1024 % 32 : ℕ) : ℤ) - 15 - 10)).toNat) =
                25 - s16 / 1024 % 32 from by omega]]
        by_cases hS : s16 / 32768 % 2 = 1
        · rw [if_pos hS, if_pos hS]
          simp only [Int.cast_mul, Int.cast_neg, Int.cast_add, Int.cast_natCast,
            Int.cast_pow, Int.cast_ofNat, Nat.cast_pow, Nat.cast_ofNat, Nat.cast_one]
          ring
        · rw [if_neg hS, if_neg hS]
          simp only [Int.cast_mul, Int.cast_neg, Int.cast_add, Int.cast_natCast,
            Int.cast_pow, Int.cast_ofNat, Nat.cast_pow, Nat.cast_ofNat, Nat.cast_one]
          ring
/-- Claim C10 (counterexample): the round-trip is not exact for every
finite nonzero double: `x = 1 + 2^-40` is accepted by `writeHalf` (which
inspects only the float32 rounding of `x`, here exactly `1.0` with clear
low mantissa bits) and writes `0x3c00`, but `parseHalf` reads those bytes
back as `1 ≠ x`. -/
theorem claim_C10_counterexample :
    writeHalf (mkRat (2 ^ 40 + 1) (2 ^ 40)) = some 0x3C00 ∧
    parseHalf (0x3C00 / 256) (0x3C00 % 256) = .fin 1 ∧
    mkRat (2 ^ 40 + 1) (2 ^ 40) ≠ 0 ∧ mkRat (2 ^ 40 + 1) (2 ^ 40) ≠ 1 :=
  ⟨by decide, by decide, by decide, by decide⟩

/-- Claim C10 (amended): for every finite double `x` that is exactly
representable in binary32 (reading back the float32 rounding of `x`
recovers `x`, i.e. `Math.fround(x) === x`), if `writeHalf` accepts `x` and
writes the 16-bit value `s16`, then `parseHalf` on its two bytes returns
exactly `x`: on float32-exact doubles the half-precision narrowing is
exactly invertible. -/
theorem claim_C10_half_roundtrip (x : ℚ)
    (hx : valBits 23 8 (fbits 23 8 x) = .fin x) (s16 : ℕ)
    (hw : writeHalf x = some s16) :
    parseHalf (s16 / 256) (s16 % 256) = .fin x := by
  simp only [writeHalf] at hw
  set u := fbits 23 8 x with hu
  have mask13 : u &&& 8191 = u % 8192 := by
    rw [show (8191 : ℕ) = 2 ^ 13 - 1 from rfl, Nat.and_pow_two_sub_one_eq_mod]
  have hsbit : (u >>> 16) &&& 32768 = u / 2147483648 % 2 * 32768 := by
    rw [Nat.shiftRight_eq_div_pow, show (32768 : ℕ) = 2 ^ 15 from rfl, and_two_pow_eq,
      Nat.div_div_eq_div_mul]
    norm_num
  have hexpu : (u >>> 23) &&& 255 = u / 8388608 % 256 := by
    rw [Nat.shiftRight_eq_div_pow, show (255 : ℕ) = 2 ^ 8 - 1 from rfl,
      Nat.and_pow_two_sub_one_eq_mod]
  have hmantu : u &&& 8388607 = u % 8388608 := by
    rw [show (8388607 : ℕ) = 2 ^ 23 - 1 from rfl, Nat.and_pow_two_sub_one_eq_mod]
  rw [mask13, hsbit, hexpu, hmantu] at hw
  simp only [Nat.shiftLeft_eq, Nat.shiftRight_eq_div_pow, one_mul,
    Nat.and_pow_two_sub_one_eq_mod] at hw
  by_cases h13 : u % 8192 ≠ 0
  · rw [if_pos h13] at hw
    simp at hw
  · rw [if_neg h13] at hw
    have h13' : u % 8192 = 0 := by omega
    by_cases hA : 113 ≤ u / 8388608 % 256 ∧ u / 8388608 % 256 ≤ 142
    · rw [if_pos hA] at hw
      injection hw with hs
      obtain ⟨hA1, hA2⟩ := hA
      simp only [valBits,
        show (2 : ℕ) ^ 23 = 8388608 from by norm_num,
        show (2 : ℕ) ^ (23 + 8) = 2147483648 from by norm_num,
        show (2 : ℕ) ^ 8 = 256 from by norm_num,
        show (256 : ℕ) - 1 = 255 from by norm_num,
        show ((2 : ℤ) ^ (8 - 1) - 1) = 127 from by norm_num,
        show ((2 : ℚ) ^ 23) = 8388608 from by norm_num,
        Nat.cast_ofNat] at hx
      rw [if_neg (by omega : ¬(u / 8388608 % 256 = 255)),
        if_neg (by omega : ¬(u / 8388608 % 256 = 0)), JSNum.fin.injEq] at hx
      have hbound : s16 < 65536 := by omega
      rw [parseHalf_val s16 hbound]
      simp only [valBits,
        show (2 : ℕ) ^ 10 = 1024 from by norm_num,
        show (2 : ℕ) ^ (10 + 5) = 32768 from by norm_num,
        show (2 : ℕ) ^ 5 = 32 from by norm_num,
        show (32 : ℕ) - 1 = 31 from by norm_num,
        show ((2 : ℤ) ^ (5 - 1) - 1) = 15 from by norm_num,
        show ((2 : ℚ) ^ 10) = 1024 from by norm_num,
        Nat.cast_ofNat]
      rw [if_neg (by omega : ¬(s16 / 1024 % 32 = 31)),
        if_neg (by omega : ¬(s16 / 1024 % 32 = 0)), JSNum.fin.injEq]
      rw [← hx]
      rw [show s16 % 1024 = u % 8388608 / 2 ^ 13 from by omega,
        show s16 / 1024 % 32 = u / 8388608 % 256 - 112 from by omega]
      set m16 := u % 8388608 / 2 ^ 13 with hm16
      have hmrel : u % 8388608 = m16 * 2 ^ 13 := by omega
      rw [hmrel, qpow2_eq_zpow, qpow2_eq_zpow,
        show (((u / 8388608 % 256 - 112 : ℕ) : ℤ) - 15 - 10) =
          (((u / 8388608 % 256 : ℕ) : ℤ) - 127 - 23) + 13 from by omega,
        zpow_add₀ (by norm_num : (2 : ℚ) ≠ 0),
        show ((2 : ℚ) ^ (13 : ℤ)) = 8192 from by norm_num]
      by_cases hS : u / 2147483648 % 2 = 1
      · rw [if_pos (by omega : s16 / 32768 % 2 = 1), if_pos hS]
        push_cast
        ring
      · rw [if_neg (by omega : ¬(s16 / 32768 % 2 = 1)), if_neg hS]
        push_cast
        ring
    · rw [if_neg hA] at hw
      by_cases hB : 103 ≤ u / 8388608 % 256 ∧ u / 8388608 % 256 < 113
      · rw [if_pos hB] at hw
        obtain ⟨hB1, hB2⟩ := hB
        by_cases hmask : u % 8388608 % 2 ^ (126 - u / 8388608 % 256) ≠ 0
        · rw [if_pos hmask] at hw
          simp at hw
        · rw [if_neg hmask] at hw
          injection hw with hs
          push_neg at hmask
          set P := 2 ^ (126 - u / 8388608 % 256) with hP
          set m16 := (u % 8388608 + 8388608) / P with hm16
          have hP14 : 2 ^ 14 ≤ P := by
            rw [hP]
            exact Nat.pow_le_pow_right (by norm_num) (by omega)
          have hP23 : P ≤ 2 ^ 23 := by
            rw [hP]
            exact Nat.pow_le_pow_right (by norm_num) (by omega)
          have hdvd : P ∣ (u % 8388608 + 8388608) := by
            apply dvd_add
            · exact Nat.dvd_of_mod_eq_zero hmask
            · rw [hP, show (8388608 : ℕ) = 2 ^ 23 from by norm_num]
              exact pow_dvd_pow 2 (by omega)
          have hmeq : u % 8388608 + 8388608 = m16 * P := by
            rw [hm16]
            exact (Nat.div_mul_cancel hdvd).symm
          have hm16lt : m16 < 1024 := by
            rw [hm16]
            apply Nat.div_lt_of_lt_mul
            calc u % 8388608 + 8388608 < 2 ^ 24 := by omega
              _ = 2 ^ 14 * 1024 := by norm_num
              _ ≤ P * 1024 := Nat.mul_le_mul_right 1024 hP14
          have hm16pos : 1 ≤ m16 := by
            rw [hm16]
            rw [Nat.le_div_iff_mul_le (by positivity : 0 < P)]
            calc 1 * P = P := one_mul P
              _ ≤ 2 ^ 23 := hP23
              _ ≤ u % 8388608 + 8388608 := by omega
          have hbound : s16 < 65536 := by omega
          rw [parseHalf_val s16 hbound]
          simp only [valBits,
            show (2 : ℕ) ^ 23 = 8388608 from by norm_num,
            show (2 : ℕ) ^ (23 + 8) = 2147483648 from by norm_num,
            show (2 : ℕ) ^ 8 = 256 from by norm_num,
            show (256 : ℕ) - 1 = 255 from by norm_num,
            show ((2 : ℤ) ^ (8 - 1) - 1) = 127 from by norm_num,
            show ((2 : ℚ) ^ 23) = 8388608 from by norm_num,
            Nat.cast_ofNat] at hx
          rw [if_neg (by omega : ¬(u / 8388608 % 256 = 255)),
            if_neg (by omega : ¬(u / 8388608 % 256 = 0)), JSNum.fin.injEq] at hx
          simp only [valBits,
            show (2 : ℕ) ^ 10 = 1024 from by norm_num,
            show (2 : ℕ) ^ (10 + 5) = 32768 from by norm_num,
            show (2 : ℕ) ^ 5 = 32 from by norm_num,
            show (32 : ℕ) - 1 = 31 from by norm_num,
            show ((2 : ℤ) ^ (5 - 1) - 1) = 15 from by norm_num,
            show ((1 : ℤ) - 15 - 10) = -24 from by norm_num,
            Nat.cast_ofNat]
          rw [if_neg (by omega : ¬(s16 / 1024 % 32 = 31)),
            if_pos (by omega : s16 / 1024 % 32 = 0),
            if_neg (by omega : ¬(s16 % 1024 = 0)), JSNum.fin.injEq]
          rw [← hx]
          rw [show s16 % 1024 = m16 from by omega]
          have hcast : ((8388608 : ℚ) + ↑(u % 8388608)) = ↑m16 * ↑P := by
            calc (8388608 : ℚ) + ↑(u % 8388608)
                = ((u % 8388608 + 8388608 : ℕ) : ℚ) := by push_cast; ring
              _ = ((m16 * P : ℕ) : ℚ) := by rw [hmeq]
              _ = ↑m16 * ↑P := by push_cast; ring
          rw [hcast, qpow2_eq_zpow, qpow2_eq_zpow]
          have hPz : (↑P : ℚ) = (2 : ℚ) ^ ((126 - u / 8388608 % 256 : ℕ) : ℤ) := by
            rw [hP]
            push_cast
            rw [zpow_natCast]
          have hsplit : ((u / 8388608 % 256 : ℕ) : ℤ) - 127 - 23 =
              (-24 : ℤ) + (-((126 - u / 8388608 % 256 : ℕ) : ℤ)) := by omega
          rw [hPz, hsplit, zpow_add₀ (by norm_num : (2 : ℚ) ≠ 0), zpow_neg]
          have hne : ((2 : ℚ) ^ ((126 - u / 8388608 % 256 : ℕ) : ℤ)) ≠ 0 := by
            positivity
          by_cases hS : u / 2147483648 % 2 = 1
          · rw [if_pos (by omega : s16 / 32768 % 2 = 1), if_pos hS]
            field_simp
            ring
          · rw [if_neg (by omega : ¬(s16 / 32768 % 2 = 1)), if_neg hS]
            field_simp
            ring
      · rw [if_neg hB] at hw
        simp at hw

/-- Witness for the amended C10 at `x = 3/2` (float32-exact), whose half
encoding is `0x3e00`. -/
theorem claim_C10_witness :
    parseHalf (0x3E00 / 256) (0x3E00 % 256) = .fin (mkRat 3 2) := by
  have h1 : valBits 23 8 (fbits 23 8 (mkRat 3 2)) = .fin (mkRat 3 2) :=
    (valExact_iff_valBits 23 8 (fbits 23 8 (mkRat 3 2)) (mkRat 3 2) (by decide)).mp
      (by decide)
  exact claim_C10_half_roundtrip (mkRat 3 2) h1 0x3E00 (by decide)

end CborDB